import Mathlib

/-!
Verification development for the json-editor schema resolution and validation
engine.  The repository source under scrutiny is `src/core.js` (the
`JSONEditor` class).  The `Validator` and `SchemaLoader` collaborators are
imported by `core.js` but their sources are not part of the shipped tree, so
those two components are modelled from the specification (each such
definition carries a doc comment starting with `Modelled from the spec:`).
Everything in the `JSONEditor` namespace is translated directly from
`src/core.js`.
-/

set_option maxRecDepth 4096

/-- JSON values: the data both schemas and validated documents are made of.
Objects are ordered association lists (insertion order preserved for
deterministic error ordering, per the spec data model).  Numbers are modelled
as rationals, covering every JSON numeral exactly. -/
inductive JValue : Type where
  | null : JValue
  | bool (b : Bool) : JValue
  | num (q : Rat) : JValue
  | str (s : String) : JValue
  | arr (elems : List JValue) : JValue
  | obj (fields : List (String × JValue)) : JValue

/-- Runtime kind of a JSON value, the closed tag set the spec dispatches on. -/
inductive JKind : Type where
  | kNull | kBool | kNum | kStr | kArr | kObj
  deriving DecidableEq

/-- Path token of a validation error: a property name or an array index. -/
inductive PTok : Type where
  | key (k : String) : PTok
  | idx (i : Nat) : PTok
  deriving DecidableEq

/-- Validation Error record: path from the root, failing keyword name, and a
human readable message. -/
structure VError : Type where
  path : List PTok
  property : String
  message : String
  deriving DecidableEq

/-- First value bound to a key in an association list. -/
def findVal {α : Type} : List (String × α) → String → Option α
  | [], _ => none
  | (k, w) :: rest, key => if k = key then some w else findVal rest key

mutual
/-- Decidable structural equality for JSON values. -/
def JValue.decEq : (a b : JValue) → Decidable (a = b)
  | .null, .null => isTrue rfl
  | .bool x, .bool y =>
    if h : x = y then isTrue (by rw [h])
    else isFalse (by intro hc; cases hc; exact h rfl)
  | .num x, .num y =>
    if h : x = y then isTrue (by rw [h])
    else isFalse (by intro hc; cases hc; exact h rfl)
  | .str x, .str y =>
    if h : x = y then isTrue (by rw [h])
    else isFalse (by intro hc; cases hc; exact h rfl)
  | .arr xs, .arr ys =>
    match JValue.decEqList xs ys with
    | isTrue h => isTrue (by rw [h])
    | isFalse h => isFalse (by intro hc; cases hc; exact h rfl)
  | .obj fs, .obj gs =>
    match JValue.decEqFields fs gs with
    | isTrue h => isTrue (by rw [h])
    | isFalse h => isFalse (by intro hc; cases hc; exact h rfl)
  | .null, .bool _ => isFalse (by intro h; cases h)
  | .null, .num _ => isFalse (by intro h; cases h)
  | .null, .str _ => isFalse (by intro h; cases h)
  | .null, .arr _ => isFalse (by intro h; cases h)
  | .null, .obj _ => isFalse (by intro h; cases h)
  | .bool _, .null => isFalse (by intro h; cases h)
  | .bool _, .num _ => isFalse (by intro h; cases h)
  | .bool _, .str _ => isFalse (by intro h; cases h)
  | .bool _, .arr _ => isFalse (by intro h; cases h)
  | .bool _, .obj _ => isFalse (by intro h; cases h)
  | .num _, .null => isFalse (by intro h; cases h)
  | .num _, .bool _ => isFalse (by intro h; cases h)
  | .num _, .str _ => isFalse (by intro h; cases h)
  | .num _, .arr _ => isFalse (by intro h; cases h)
  | .num _, .obj _ => isFalse (by intro h; cases h)
  | .str _, .null => isFalse (by intro h; cases h)
  | .str _, .bool _ => isFalse (by intro h; cases h)
  | .str _, .num _ => isFalse (by intro h; cases h)
  | .str _, .arr _ => isFalse (by intro h; cases h)
  | .str _, .obj _ => isFalse (by intro h; cases h)
  | .arr _, .null => isFalse (by intro h; cases h)
  | .arr _, .bool _ => isFalse (by intro h; cases h)
  | .arr _, .num _ => isFalse (by intro h; cases h)
  | .arr _, .str _ => isFalse (by intro h; cases h)
  | .arr _, .obj _ => isFalse (by intro h; cases h)
  | .obj _, .null => isFalse (by intro h; cases h)
  | .obj _, .bool _ => isFalse (by intro h; cases h)
  | .obj _, .num _ => isFalse (by intro h; cases h)
  | .obj _, .str _ => isFalse (by intro h; cases h)
  | .obj _, .arr _ => isFalse (by intro h; cases h)

/-- Decidable equality for lists of JSON values. -/
def JValue.decEqList : (as bs : List JValue) → Decidable (as = bs)
  | [], [] => isTrue rfl
  | _ :: _, [] => isFalse (by intro h; cases h)
  | [], _ :: _ => isFalse (by intro h; cases h)
  | a :: as, b :: bs =>
    match JValue.decEq a b with
    | isFalse h => isFalse (by intro hc; cases hc; exact h rfl)
    | isTrue h =>
      match JValue.decEqList as bs with
      | isTrue h2 => isTrue (by rw [h, h2])
      | isFalse h2 => isFalse (by intro hc; cases hc; exact h2 rfl)

/-- Decidable equality for JSON object field lists. -/
def JValue.decEqFields : (as bs : List (String × JValue)) → Decidable (as = bs)
  | [], [] => isTrue rfl
  | _ :: _, [] => isFalse (by intro h; cases h)
  | [], _ :: _ => isFalse (by intro h; cases h)
  | (k, a) :: as, (l, b) :: bs =>
    if h : k = l then
      match JValue.decEq a b with
      | isFalse h2 => isFalse (by intro hc; cases hc; exact h2 rfl)
      | isTrue h2 =>
        match JValue.decEqFields as bs with
        | isTrue h3 => isTrue (by rw [h, h2, h3])
        | isFalse h3 => isFalse (by intro hc; cases hc; exact h3 rfl)
    else isFalse (by intro hc; cases hc; exact h rfl)
end

instance : DecidableEq JValue := JValue.decEq

/-- Runtime kind of a value. -/
def kindOf : JValue → JKind
  | .null => .kNull
  | .bool _ => .kBool
  | .num _ => .kNum
  | .str _ => .kStr
  | .arr _ => .kArr
  | .obj _ => .kObj

/-- Fields of a value when it is an object. -/
def fieldsOf : JValue → Option (List (String × JValue))
  | .obj fs => some fs
  | _ => none

/-- Schema Node of the resolved graph, keyword view.  Modelled from the spec:
the Validator source (validator.js) is not under src/, so the keyword set and
its semantics follow section 4.2 of the specification.  Keywords whose
semantics the spec leaves to external machinery (regex patterns) are omitted;
the modelled subset is type, enum, minimum, maximum, minLength, maxLength,
format, minItems, maxItems, uniqueItems, items, properties, required, allOf,
anyOf, oneOf and not.  A node whose refK field is set is a lazy
back-reference (spec sections 3 and 4.1): a link by canonical URI into the
backing Reference Table, which the Validator dereferences at validation time
(spec section 4.2 step 8); this is what makes cyclic resolved graphs
representable. -/
inductive Schema : Type where
  | mk : (tyK : Option (List JKind)) → (enumK : Option (List JValue)) →
      (minK maxK : Option Rat) → (minLenK maxLenK : Option Nat) →
      (formatK : Option String) → (minItemsK maxItemsK : Option Nat) →
      (uniqueItemsK : Bool) → (itemsK : Option Schema) →
      (propsK : List (String × Schema)) → (requiredK : List String) →
      (allOfK anyOfK oneOfK : List Schema) → (notK : Option Schema) →
      (refK : Option String) → Schema

/-- Allowed kinds keyword. -/
def Schema.tyK : Schema → Option (List JKind)
  | .mk x _ _ _ _ _ _ _ _ _ _ _ _ _ _ _ _ _ => x

/-- Enum keyword. -/
def Schema.enumK : Schema → Option (List JValue)
  | .mk _ x _ _ _ _ _ _ _ _ _ _ _ _ _ _ _ _ => x

/-- Minimum keyword. -/
def Schema.minK : Schema → Option Rat
  | .mk _ _ x _ _ _ _ _ _ _ _ _ _ _ _ _ _ _ => x

/-- Maximum keyword. -/
def Schema.maxK : Schema → Option Rat
  | .mk _ _ _ x _ _ _ _ _ _ _ _ _ _ _ _ _ _ => x

/-- MinLength keyword. -/
def Schema.minLenK : Schema → Option Nat
  | .mk _ _ _ _ x _ _ _ _ _ _ _ _ _ _ _ _ _ => x

/-- MaxLength keyword. -/
def Schema.maxLenK : Schema → Option Nat
  | .mk _ _ _ _ _ x _ _ _ _ _ _ _ _ _ _ _ _ => x

/-- Format keyword. -/
def Schema.formatK : Schema → Option String
  | .mk _ _ _ _ _ _ x _ _ _ _ _ _ _ _ _ _ _ => x

/-- MinItems keyword. -/
def Schema.minItemsK : Schema → Option Nat
  | .mk _ _ _ _ _ _ _ x _ _ _ _ _ _ _ _ _ _ => x

/-- MaxItems keyword. -/
def Schema.maxItemsK : Schema → Option Nat
  | .mk _ _ _ _ _ _ _ _ x _ _ _ _ _ _ _ _ _ => x

/-- UniqueItems keyword. -/
def Schema.uniqueItemsK : Schema → Bool
  | .mk _ _ _ _ _ _ _ _ _ x _ _ _ _ _ _ _ _ => x

/-- Items keyword. -/
def Schema.itemsK : Schema → Option Schema
  | .mk _ _ _ _ _ _ _ _ _ _ x _ _ _ _ _ _ _ => x

/-- Properties keyword. -/
def Schema.propsK : Schema → List (String × Schema)
  | .mk _ _ _ _ _ _ _ _ _ _ _ x _ _ _ _ _ _ => x

/-- Required keyword. -/
def Schema.requiredK : Schema → List String
  | .mk _ _ _ _ _ _ _ _ _ _ _ _ x _ _ _ _ _ => x

/-- AllOf keyword. -/
def Schema.allOfK : Schema → List Schema
  | .mk _ _ _ _ _ _ _ _ _ _ _ _ _ x _ _ _ _ => x

/-- AnyOf keyword. -/
def Schema.anyOfK : Schema → List Schema
  | .mk _ _ _ _ _ _ _ _ _ _ _ _ _ _ x _ _ _ => x

/-- OneOf keyword. -/
def Schema.oneOfK : Schema → List Schema
  | .mk _ _ _ _ _ _ _ _ _ _ _ _ _ _ _ x _ _ => x

/-- Not keyword. -/
def Schema.notK : Schema → Option Schema
  | .mk _ _ _ _ _ _ _ _ _ _ _ _ _ _ _ _ x _ => x

/-- Lazy back-reference of the node, when the node is a link into the
Reference Table. -/
def Schema.refK : Schema → Option String
  | .mk _ _ _ _ _ _ _ _ _ _ _ _ _ _ _ _ _ x => x

/-- Schema with no keyword constraints at all. -/
def Schema.empty : Schema :=
  .mk none none none none none none none none none false none [] [] [] [] [] none none

mutual
/-- Structural size of a JSON value, the data part of the validator's
termination measure. -/
def jSize : JValue → Nat
  | .arr xs => jSizeList xs + 1
  | .obj fs => jSizeFields fs + 1
  | .null => 1
  | .bool _ => 1
  | .num _ => 1
  | .str _ => 1
  termination_by structural v => v

/-- Size of a list of JSON values. -/
def jSizeList : List JValue → Nat
  | [] => 0
  | v :: rest => jSize v + jSizeList rest + 1
  termination_by structural vs => vs

/-- Size of a JSON object field list. -/
def jSizeFields : List (String × JValue) → Nat
  | [] => 0
  | (_, v) :: rest => jSize v + jSizeFields rest + 1
  termination_by structural fs => fs
end

mutual
/-- Structural size of a schema node, the schema part of the validator's
termination measure. -/
def schSize : Schema → Nat
  | .mk _ _ _ _ _ _ _ _ _ _ its props _ aOf anyO oneO notS _ =>
      optSchSize its + schPropsSize props + schListSize aOf + schListSize anyO +
      schListSize oneO + optSchSize notS + 1

/-- Size of an optional schema. -/
def optSchSize : Option Schema → Nat
  | none => 0
  | some s => schSize s + 1

/-- Size of a schema property list. -/
def schPropsSize : List (String × Schema) → Nat
  | [] => 0
  | (_, s) :: rest => schSize s + schPropsSize rest + 1

/-- Size of a schema list. -/
def schListSize : List Schema → Nat
  | [] => 0
  | s :: rest => schSize s + schListSize rest + 1
end

/-- Builds a Validation Error. -/
def mkErr (p : List PTok) (prop msg : String) : VError :=
  ⟨p, prop, msg⟩

/-- Modelled from the spec: advisory format checking (Validator step 4).  A
known format name applies a dedicated recognizer; an unknown format name
never produces an error. -/
def formatCheck (p : List PTok) (f t : String) : List VError :=
  if f = "email" then
    if t.contains '@' then [] else [mkErr p "format" "value is not an email address"]
  else []

/-- Modelled from the spec: the non-recursive keyword checks of one Validator
node visit, steps 1 to 4 of the traversal order — type, enum deep equality,
numeric bounds when the kind is numeric, string length and advisory format
when the kind is string. -/
def scalarChecks (s : Schema) (v : JValue) (p : List PTok) : List VError :=
  let tErr := match s.tyK with
    | none => []
    | some ks =>
      if kindOf v ∈ ks then [] else [mkErr p "type" "value is not of the expected type"]
  let eErr := match s.enumK with
    | none => []
    | some es =>
      if v ∈ es then [] else [mkErr p "enum" "value is not one of the enumerated values"]
  let nErr := match v with
    | .num q =>
        (match s.minK with
         | some m => if q < m then [mkErr p "minimum" "value is below the minimum"] else []
         | none => []) ++
        (match s.maxK with
         | some m => if m < q then [mkErr p "maximum" "value is above the maximum"] else []
         | none => [])
    | _ => []
  let sErr := match v with
    | .str t =>
        (match s.minLenK with
         | some m => if t.length < m then [mkErr p "minLength" "string is too short"] else []
         | none => []) ++
        (match s.maxLenK with
         | some m => if m < t.length then [mkErr p "maxLength" "string is too long"] else []
         | none => []) ++
        (match s.formatK with
         | some f => formatCheck p f t
         | none => [])
    | _ => []
  tErr ++ eErr ++ nErr ++ sErr

/-- Modelled from the spec: non-recursive array keyword checks of Validator
step 5 (minItems, maxItems, uniqueItems), applied when the kind is array. -/
def arrayCountChecks (s : Schema) (v : JValue) (p : List PTok) : List VError :=
  match v with
  | .arr xs =>
      (match s.minItemsK with
       | some m => if xs.length < m then [mkErr p "minItems" "array has too few items"] else []
       | none => []) ++
      (match s.maxItemsK with
       | some m => if m < xs.length then [mkErr p "maxItems" "array has too many items"] else []
       | none => []) ++
      (if s.uniqueItemsK ∧ ¬ xs.Nodup then [mkErr p "uniqueItems" "array items are not unique"] else [])
  | _ => []

/-- Modelled from the spec: the required keyword of Validator step 6 — one
error per missing required key, each carrying the missing key's own path. -/
def requiredChecks (s : Schema) (v : JValue) (p : List PTok) : List VError :=
  match v with
  | .obj fields =>
      s.requiredK.filterMap fun k =>
        match findVal fields k with
        | some _ => none
        | none => some (mkErr (p ++ [PTok.key k]) "required" "required property is missing")
  | _ => []

/-- Modelled from the spec: the anyOf combinator — at least one branch must
pass; if none pass, a synthetic error plus the branch-failure summaries are
reported. -/
def combineAnyOf (p : List PTok) (rs : List (List VError)) : List VError :=
  if rs.any List.isEmpty then []
  else mkErr p "anyOf" "no anyOf branch matched" :: rs.flatten

/-- Modelled from the spec: the oneOf combinator — exactly one branch must
pass.  If zero branches pass, a synthetic error plus each branch's failure
detail is reported; if more than one passes, a single ambiguous-match error
is reported. -/
def combineOneOf (p : List PTok) (rs : List (List VError)) : List VError :=
  let passed := (rs.filter List.isEmpty).length
  if passed = 1 then []
  else if passed = 0 then mkErr p "oneOf" "no oneOf branch matched" :: rs.flatten
  else [mkErr p "oneOf" "ambiguous match"]

/-- Custom Validator: a caller-supplied function from (schema node, data
value, path) to a sequence of Validation Errors; a throwing custom validator
is modelled as returning an error value of the Except monad. -/
def CustomV : Type :=
  Schema → JValue → List PTok → Except String (List VError)

/-- Modelled from the spec: running the registered custom validators in
order on one node, appending their returned errors verbatim; a throw
propagates as the hard-failure side of the Except. -/
def runCVs : List CustomV → Schema → JValue → List PTok → Except String (List VError)
  | [], _, _, _ => .ok []
  | f :: rest, s, v, p => do
      let es ← f s v p
      let more ← runCVs rest s v p
      pure (es ++ more)

mutual
/-- Modelled from the spec: one Validator node visit, the full section 4.2
traversal order — the non-recursive keyword checks (steps 1 to 4 plus the
array and object counts), items recursion with the index appended to the
path (step 5), properties recursion with the property name appended
(step 6), the allOf, anyOf, oneOf and not combinators (step 7), then step 8:
when the node is a lazy back-reference, dereference it through the backing
Reference Table and recurse on the dereferenced node against the same value
at the same path (a link whose canonical URI is missing from the table is
reported as a data error, a state the loader never produces), and the custom
validators last (step 9).  The fuel argument only bounds recursion depth;
`Validator.validate` supplies fuel proved sufficient for every well-formed
graph. -/
def vFuel : Nat → List CustomV → List (String × Schema) → Schema → JValue →
    List PTok → Except String (List VError)
  | 0, _, _, _, _, _ => .error "validator recursion depth exhausted"
  | fuel + 1, cvs, tbl, s, v, p =>
      (match s.itemsK, v with
       | some its, .arr elems => vItemsFuel fuel cvs tbl its elems 0 p
       | _, _ => pure []) >>= fun itemErrs =>
      (match fieldsOf v with
       | some fields => vPropsFuel fuel cvs tbl s.propsK fields p
       | none => pure []) >>= fun propErrs =>
      (vBranchesFuel fuel cvs tbl s.allOfK v p >>= fun rs => pure rs.flatten) >>=
        fun allOfErrs =>
      (match s.anyOfK with
       | [] => pure []
       | b :: br =>
           vBranchesFuel fuel cvs tbl (b :: br) v p >>= fun rs =>
           pure (combineAnyOf p rs)) >>= fun anyOfErrs =>
      (match s.oneOfK with
       | [] => pure []
       | b :: br =>
           vBranchesFuel fuel cvs tbl (b :: br) v p >>= fun rs =>
           pure (combineOneOf p rs)) >>= fun oneOfErrs =>
      (match s.notK with
       | none => pure []
       | some ns =>
           vFuel fuel cvs tbl ns v p >>= fun r =>
           pure (if r.isEmpty then [mkErr p "not" "value must not match the not schema"] else [])) >>=
        fun notErrs =>
      (match s.refK with
       | none => pure []
       | some u =>
           match findVal tbl u with
           | some target => vFuel fuel cvs tbl target v p
           | none => pure [mkErr p "$ref" "lazy reference is missing from the table"]) >>=
        fun refErrs =>
      runCVs cvs s v p >>= fun cvErrs =>
      pure (scalarChecks s v p ++ arrayCountChecks s v p ++ itemErrs ++
            requiredChecks s v p ++ propErrs ++ allOfErrs ++ anyOfErrs ++
            oneOfErrs ++ notErrs ++ refErrs ++ cvErrs)

/-- Modelled from the spec: items recursion of Validator step 5 — once per
element, the path extended with the numeric index. -/
def vItemsFuel : Nat → List CustomV → List (String × Schema) → Schema →
    List JValue → Nat → List PTok → Except String (List VError)
  | 0, _, _, _, _, _, _ => .error "validator recursion depth exhausted"
  | fuel + 1, cvs, tbl, its, elems, i, p =>
    match elems with
    | [] => pure []
    | e :: rest =>
        vFuel fuel cvs tbl its e (p ++ [PTok.idx i]) >>= fun e1 =>
        vItemsFuel fuel cvs tbl its rest (i + 1) p >>= fun more =>
        pure (e1 ++ more)

/-- Modelled from the spec: properties recursion of Validator step 6 — once
per declared key present in the value, the path extended with the property
name. -/
def vPropsFuel : Nat → List CustomV → List (String × Schema) →
    List (String × Schema) → List (String × JValue) → List PTok →
    Except String (List VError)
  | 0, _, _, _, _, _ => .error "validator recursion depth exhausted"
  | fuel + 1, cvs, tbl, props, fields, p =>
    match props with
    | [] => pure []
    | (k, cs) :: rest =>
        (match findVal fields k with
         | none => pure []
         | some w => vFuel fuel cvs tbl cs w (p ++ [PTok.key k])) >>= fun e1 =>
        vPropsFuel fuel cvs tbl rest fields p >>= fun more =>
        pure (e1 ++ more)

/-- Modelled from the spec: running every branch of a combinator against the
same value at the same path, collecting each branch's full result. -/
def vBranchesFuel : Nat → List CustomV → List (String × Schema) → List Schema →
    JValue → List PTok → Except String (List (List VError))
  | 0, _, _, _, _, _ => .error "validator recursion depth exhausted"
  | fuel + 1, cvs, tbl, bs, v, p =>
    match bs with
    | [] => pure []
    | b :: rest =>
        vFuel fuel cvs tbl b v p >>= fun r =>
        vBranchesFuel fuel cvs tbl rest v p >>= fun rs =>
        pure (r :: rs)
end

/-- Total size of the schema nodes stored in a Reference Table. -/
def tblSchSize : List (String × Schema) → Nat
  | [] => 0
  | (_, s) :: rest => schSize s + tblSchSize rest + 1

/-- Modelled from the spec: the Validator entry point — walks the resolved
schema graph (root node plus backing Reference Table) against the data value
and returns the ordered Validation Result as data; the Except error side is
reachable only through a custom validator throwing.  The supplied fuel
strictly dominates the recursion measure of every well-formed graph, as
proved below: per the spec, recursion through genuine cycles consumes data,
so a bound proportional to the data size times the sizes of the root and the
table suffices. -/
def Validator.validate (cvs : List CustomV) (tbl : List (String × Schema))
    (s : Schema) (v : JValue) (p : List PTok) : Except String (List VError) :=
  vFuel ((jSize v + 1) * ((schSize s + tblSchSize tbl + 1) * (tbl.length + 2)))
    cvs tbl s v p

mutual
/-- Canonical URIs of the lazy back-references reachable from a schema node
without consuming any data: the node's own link and the links of its allOf,
anyOf, oneOf and not sub-schemas, recursively.  References under items or
properties are excluded, because following them first descends into the
value. -/
def sameValRefs : Schema → List String
  | .mk _ _ _ _ _ _ _ _ _ _ _ _ _ aOf anyO oneO notS rK =>
      (match rK with
       | some u => [u]
       | none => []) ++
      sameValRefsList aOf ++ sameValRefsList anyO ++ sameValRefsList oneO ++
      (match notS with
       | some ns => sameValRefs ns
       | none => [])

/-- Same-value reference URIs of a list of schema nodes. -/
def sameValRefsList : List Schema → List String
  | [] => []
  | s :: rest => sameValRefs s ++ sameValRefsList rest
end

/-- Strict upper bound of the ranks of a list of URIs: zero on the empty
list, otherwise one more than the largest rank. -/
def budgetOf (rank : String → Nat) : List String → Nat
  | [] => 0
  | u :: rest => max (rank u + 1) (budgetOf rank rest)

/-- Dereference budget of a node: a strict upper bound of the ranks of its
same-value references. -/
def refBudget (rank : String → Nat) (s : Schema) : Nat :=
  budgetOf rank (sameValRefs s)

/-- Termination phase of a node within one same-value stretch of the
validation: its structural size plus a rank-weighted dereference budget. -/
def phase (rank : String → Nat) (C : Nat) (s : Schema) : Nat :=
  schSize s + C * refBudget rank s

/-- Termination phase of a combinator branch list. -/
def phaseList (rank : String → Nat) (C : Nat) (bs : List Schema) : Nat :=
  schListSize bs + C * budgetOf rank (sameValRefsList bs)

/-- Well-formed resolved schema graph, the spec's cycle-handling contract
(section 4.2 step 8): cycles may only close through data-consuming descent.
The certificate is a rank on canonical URIs under which every same-value
reference of a table entry has strictly smaller rank than the entry itself —
so a chain of dereferences that consumes no data visits strictly descending
ranks and is finite — together with the observation that such a rank never
needs to exceed the table's length.  Genuinely cyclic graphs (a node whose
items or properties refer back to it) satisfy this with rank zero. -/
def WfGraph (tbl : List (String × Schema)) (rank : String → Nat) : Prop :=
  (∀ u s, findVal tbl u = some s → ∀ u2 ∈ sameValRefs s, rank u2 < rank u) ∧
  (∀ u, rank u ≤ tbl.length)
/-! Model of the JSONEditor class, translated from src/core.js.  Methods are
state-passing functions; a JavaScript throw is the error side of an Except;
deferred requestAnimationFrame callbacks are modelled as functions applied to
whatever state the editor has when the frame fires, returning the new state
and the list of events triggered. -/

/-- Validator instance held by the editor: the resolved schema plus the
custom validators captured from the options at construction
(src/core.js lines 53 to 55). -/
structure VInst : Type where
  schema : Schema
  tbl : List (String × Schema)
  cvs : List CustomV

/-- State of one JSONEditor instance: the fields of the class in src/core.js
that the modelled methods read or write.  Presentation-only members (theme,
iconlib, template, the root container, the internal data map) are modelled
as presence flags, since only their clearing on destroy is observable
here. -/
structure JSONEditor : Type where
  ready : Bool
  destroyed : Bool
  firing_change : Bool
  schema : Option JValue
  options : Option Unit
  root : Option JValue
  root_container : Option Unit
  validator : Option VInst
  validation_results : Option (List VError)
  theme : Option Unit
  iconlib : Option Unit
  template : Option Unit
  dataMap : Option Unit
  elementHTML : String
  dataThemeAttr : Option String

/-- Result of one call of the editor's validate method: the returned value
(or the propagated throw), the editor state afterwards, and the values the
inner Validator was invoked on during the call. -/
structure MCall : Type where
  result : Except String (Option (List VError))
  state : JSONEditor
  validatorCalls : List JValue

/-- The getValue method of src/core.js lines 88 to 92: throws when the
editor is not ready, otherwise returns the root editor's current value.  The
state component is returned unchanged in every branch. -/
def JSONEditor.getValue (s : JSONEditor) : Except String JValue × JSONEditor :=
  if s.ready = false then
    (.error "JSON Editor not ready yet. Listen for ready event before getting the value", s)
  else
    match s.root with
    | some rv => (.ok rv, s)
    | none => (.error "no root editor", s)

/-- The setValue method of src/core.js lines 94 to 99: throws when the
editor is not ready, otherwise stores the value into the root editor. -/
def JSONEditor.setValue (s : JSONEditor) (v : JValue) : Except String Unit × JSONEditor :=
  if s.ready = false then
    (.error "JSON Editor not ready yet. Listen for ready event before setting the value", s)
  else
    (.ok (), { s with root := some v })

/-- The validate method of src/core.js lines 101 to 111: throws when not
ready; with exactly one argument it runs a fresh validator pass on that
argument; with any other argument count it returns the cached
validation_results without invoking the validator. -/
def JSONEditor.validate (s : JSONEditor) (args : List JValue) : MCall :=
  if s.ready = false then
    ⟨.error "JSON Editor not ready yet. Listen for ready event before validating", s, []⟩
  else
    match args with
    | [v] =>
      match s.validator with
      | some vi => ⟨(Validator.validate vi.cvs vi.tbl vi.schema v []).map some, s, [v]⟩
      | none => ⟨.error "no validator configured", s, []⟩
    | _ => ⟨.ok s.validation_results, s, []⟩

/-- The destroy method of src/core.js lines 113 to 132: a no-op when already
destroyed or when the editor never became ready; otherwise clears every
editor field, empties the element, marks the editor not ready and sets the
destroyed flag. -/
def JSONEditor.destroy (s : JSONEditor) : JSONEditor :=
  if s.destroyed then s
  else if s.ready = false then s
  else
    { s with
      schema := none, options := none, root := none, root_container := none,
      validator := none, validation_results := none, theme := none,
      iconlib := none, template := none, dataMap := none, ready := false,
      elementHTML := "", dataThemeAttr := none, destroyed := true }

/-- The deferred ready-event callback of src/core.js lines 78 to 84,
scheduled through requestAnimationFrame when resolution completes: if the
editor is no longer ready the callback returns immediately, otherwise it
re-validates, caches the result and triggers the ready and change events. -/
def JSONEditor.readyRafCb (s : JSONEditor) : Except String (JSONEditor × List String) :=
  if s.ready = false then .ok (s, [])
  else
    match s.validator, s.root with
    | some vi, some rv =>
      match Validator.validate vi.cvs vi.tbl vi.schema rv [] with
      | .ok errs => .ok ({ s with validation_results := some errs }, ["ready", "change"])
      | .error msg => .error msg
    | _, _ => .error "editor incompletely initialised"

/-- The synchronous part of onChange, src/core.js lines 220 to 226: returns
early when not ready or when a change frame is already pending, otherwise
raises the firing_change flag and schedules the deferred callback; the
boolean reports whether a frame was scheduled. -/
def JSONEditor.onChange (s : JSONEditor) : JSONEditor × Bool :=
  if s.ready = false then (s, false)
  else if s.firing_change then (s, false)
  else ({ s with firing_change := true }, true)

/-- The deferred onChange callback of src/core.js lines 228 to 243: it first
resets the firing_change flag, then returns if the editor is no longer
ready, otherwise re-validates, caches the result and triggers the change
event. -/
def JSONEditor.onChangeRafCb (s : JSONEditor) : Except String (JSONEditor × List String) :=
  let s1 := { s with firing_change := false }
  if s1.ready = false then .ok (s1, [])
  else
    match s1.validator, s1.root with
    | some vi, some rv =>
      match Validator.validate vi.cvs vi.tbl vi.schema rv [] with
      | .ok errs => .ok ({ s1 with validation_results := some errs }, ["change"])
      | .error msg => .error msg
    | _, _ => .error "editor incompletely initialised"

/-! Model of the SchemaLoader.  Modelled from the spec: the loader source
(schemaloader.js) is not under src/, so the resolution algorithm follows
section 4.1 of the specification — depth-first traversal, canonical URIs,
the Reference Table as a single-flight document cache, an active-resolution
stack that turns back-references into lazy cycle markers, and a callback
that fires exactly once after everything reachable is resolved.  The spec's
cooperative asynchronous fan-out is modelled as the equivalent sequential
resolution pass (spec section 5: all bookkeeping happens on a single logical
thread of control). -/

/-- Resolved Schema Node produced by the loader: raw JSON shape in which
every reference has been inlined, except references detected as cycles,
which stay as lazy back-references by canonical URI. -/
inductive RSchema : Type where
  | null : RSchema
  | bool (b : Bool) : RSchema
  | num (q : Rat) : RSchema
  | str (s : String) : RSchema
  | arr (elems : List RSchema) : RSchema
  | obj (fields : List (String × RSchema)) : RSchema
  | cyc (canonical : String) : RSchema

/-- Resolution errors, fatal to the current load call. -/
inductive LoadErr : Type where
  | dangling (ptr : String) : LoadErr
  | fetchFail (uri : String) : LoadErr
  | depthExhausted : LoadErr

/-- Observable events of one load call: a fetch of an external document and
an invocation of the onResolved callback. -/
inductive LEvent : Type where
  | fetched (uri : String) : LEvent
  | resolvedCb : LEvent

/-- Loader state: the Reference Table of already fetched documents keyed by
canonical document URI, plus the event trace so far. -/
structure LoaderSt : Type where
  docs : List (String × JValue)
  events : List LEvent

/-- Reference keyword of a raw schema node, when present. -/
def getRef (v : JValue) : Option String :=
  match v with
  | .obj fs =>
    match findVal fs "$ref" with
    | some (.str r) => some r
    | _ => none
  | _ => none

/-- Splits a character list at every occurrence of the separator. -/
def splitChars (sep : Char) : List Char → List (List Char)
  | [] => [[]]
  | c :: rest =>
    match splitChars sep rest with
    | [] => [[c]]
    | cur :: parts => if c = sep then [] :: cur :: parts else (c :: cur) :: parts

/-- Splits a string at every occurrence of the separator character. -/
def splitStr (sep : Char) (s : String) : List String :=
  (splitChars sep s.toList).map List.asString

/-- Heuristic absolute-URI test of the model: a reference with a scheme
separator is absolute. -/
def isAbsURI (s : String) : Bool :=
  s.toList.contains ':'

/-- Directory part of a document URI, up to and including the last slash. -/
def dirOf (base : String) : String :=
  match splitStr '/' base with
  | [] => ""
  | [_] => ""
  | parts => String.intercalate "/" parts.dropLast ++ "/"

/-- RFC3986-style reference resolution of the model: an absolute reference
stands alone, a relative one is resolved against the directory of the
current document. -/
def resolveURI (base rel : String) : String :=
  if isAbsURI rel then rel else dirOf base ++ rel

/-- Splits a reference into the canonical URI of the document it points into
and its JSON-pointer fragment, resolving relative document parts against
the current document's URI. -/
def splitRef (curURI r : String) : String × String :=
  match splitStr '#' r with
  | [] => (curURI, "")
  | [d] => (if d = "" then curURI else resolveURI curURI d, "")
  | d :: frag :: _ => (if d = "" then curURI else resolveURI curURI d, frag)

/-- Tokens of a JSON-pointer fragment. -/
def ptrToks (frag : String) : List String :=
  (splitStr '/' frag).filter (fun t => t ≠ "")

/-- JSON-pointer lookup inside one document. -/
def jptr : JValue → List String → Option JValue
  | v, [] => some v
  | .obj fs, t :: rest =>
    match findVal fs t with
    | some w => jptr w rest
    | none => none
  | .arr xs, t :: rest =>
    match t.toNat? with
    | some i =>
      match xs[i]? with
      | some e => jptr e rest
      | none => none
    | none => none
  | .null, _ :: _ => none
  | .bool _, _ :: _ => none
  | .num _, _ :: _ => none
  | .str _, _ :: _ => none

/-- Modelled from the spec: the check-and-set access to the Reference Table —
reuse a document already in the table, otherwise invoke the fetch capability
once, record the document and log the fetch event; a failed fetch is a
resolution error. -/
def getDoc (fetch : String → Option JValue) (st : LoaderSt) (uri : String) :
    Except LoadErr JValue × LoaderSt :=
  match findVal st.docs uri with
  | some d => (.ok d, st)
  | none =>
    match fetch uri with
    | some d => (.ok d, ⟨(uri, d) :: st.docs, st.events ++ [LEvent.fetched uri]⟩)
    | none => (.error (.fetchFail uri), st)

mutual
/-- Modelled from the spec: depth-first resolution of one raw schema node.
A reference node computes its canonical URI; a URI already on the
active-resolution stack becomes a lazy cycle marker; a fragment-only
reference is looked up in the current document without any fetch; an
external reference goes through the Reference Table; a pointer that matches
nothing is a dangling-reference error naming the offending pointer.
Structural nodes recurse into their children.  Fuel bounds the dereference
depth. -/
def resolveNode : Nat → (String → Option JValue) → LoaderSt → List String →
    JValue → String → JValue → Except LoadErr RSchema × LoaderSt
  | 0, _, st, _, _, _, _ => (.error .depthExhausted, st)
  | fuel + 1, fetch, st, stack, curDoc, curURI, v =>
    match getRef v with
    | some r =>
      let pr := splitRef curURI r
      let canonical := pr.1 ++ "#" ++ pr.2
      if canonical ∈ stack then (.ok (.cyc canonical), st)
      else if pr.1 = curURI then
        match jptr curDoc (ptrToks pr.2) with
        | none => (.error (.dangling r), st)
        | some tgt => resolveNode fuel fetch st (canonical :: stack) curDoc curURI tgt
      else
        match getDoc fetch st pr.1 with
        | (.ok d, st2) =>
          match jptr d (ptrToks pr.2) with
          | none => (.error (.dangling r), st2)
          | some tgt => resolveNode fuel fetch st2 (canonical :: stack) d pr.1 tgt
        | (.error e, st2) => (.error e, st2)
    | none =>
      match v with
      | .obj fs =>
        match resolveFields fuel fetch st stack curDoc curURI fs with
        | (.ok rfs, st2) => (.ok (.obj rfs), st2)
        | (.error e, st2) => (.error e, st2)
      | .arr xs =>
        match resolveElems fuel fetch st stack curDoc curURI xs with
        | (.ok rxs, st2) => (.ok (.arr rxs), st2)
        | (.error e, st2) => (.error e, st2)
      | .null => (.ok .null, st)
      | .bool b => (.ok (.bool b), st)
      | .num q => (.ok (.num q), st)
      | .str sv => (.ok (.str sv), st)

/-- Modelled from the spec: resolution of the fields of one raw object node,
threading the Reference Table left to right. -/
def resolveFields : Nat → (String → Option JValue) → LoaderSt → List String →
    JValue → String → List (String × JValue) →
    Except LoadErr (List (String × RSchema)) × LoaderSt
  | 0, _, st, _, _, _, _ => (.error .depthExhausted, st)
  | fuel + 1, fetch, st, stack, curDoc, curURI, fs =>
    match fs with
    | [] => (.ok [], st)
    | (k, w) :: rest =>
      match resolveNode fuel fetch st stack curDoc curURI w with
      | (.ok rw, st2) =>
        match resolveFields fuel fetch st2 stack curDoc curURI rest with
        | (.ok rrest, st3) => (.ok ((k, rw) :: rrest), st3)
        | (.error e, st3) => (.error e, st3)
      | (.error e, st2) => (.error e, st2)

/-- Modelled from the spec: resolution of the elements of one raw array
node, threading the Reference Table left to right. -/
def resolveElems : Nat → (String → Option JValue) → LoaderSt → List String →
    JValue → String → List JValue →
    Except LoadErr (List RSchema) × LoaderSt
  | 0, _, st, _, _, _, _ => (.error .depthExhausted, st)
  | fuel + 1, fetch, st, stack, curDoc, curURI, xs =>
    match xs with
    | [] => (.ok [], st)
    | x :: rest =>
      match resolveNode fuel fetch st stack curDoc curURI x with
      | (.ok rx, st2) =>
        match resolveElems fuel fetch st2 stack curDoc curURI rest with
        | (.ok rrest, st3) => (.ok (rx :: rrest), st3)
        | (.error e, st3) => (.error e, st3)
      | (.error e, st2) => (.error e, st2)
end

/-- Modelled from the spec: the load entry point — seeds the Reference Table
with the root document, resolves everything reachable from the root, and on
success invokes the onResolved callback exactly once (recorded as the
resolvedCb event at the end of the trace); on a resolution error the
callback is never invoked. -/
def SchemaLoader.load (fuel : Nat) (fetch : String → Option JValue)
    (root : JValue) (base : String) : Except LoadErr RSchema × List LEvent :=
  match resolveNode fuel fetch ⟨[(base, root)], []⟩ [] root base root with
  | (.ok g, st) => (.ok g, st.events ++ [LEvent.resolvedCb])
  | (.error e, st) => (.error e, st.events)

/-- Canonical URIs fetched during a trace, in order. -/
def fetchLog (evs : List LEvent) : List String :=
  evs.filterMap fun ev =>
    match ev with
    | .fetched u => some u
    | .resolvedCb => none

/-- Number of onResolved callback invocations recorded in a trace. -/
def resolvedCount (evs : List LEvent) : Nat :=
  (evs.filter fun ev =>
    match ev with
    | .resolvedCb => true
    | .fetched _ => false).length

/-! Concrete inputs used by the claim theorems. -/

/-- Schema accepting numbers only. -/
def numOnly : Schema :=
  .mk (some [JKind.kNum]) none none none none none none none none false none [] [] [] [] [] none none

/-- Schema with only a minimum of zero. -/
def minZero : Schema :=
  .mk none none (some 0) none none none none none none false none [] [] [] [] [] none none

/-- The oneOf schema of the spec's ambiguity test: oneOf a number schema and
a minimum-zero schema. -/
def c7schema : Schema :=
  .mk none none none none none none none none none false none [] [] [] [] [numOnly, minZero] none none

/-- The nested object schema of the spec's path-correctness test. -/
def c6schema : Schema :=
  .mk (some [JKind.kObj]) none none none none none none none none false none
    [("a", .mk (some [JKind.kObj]) none none none none none none none none false none
      [("b", numOnly)] [] [] [] [] none none)] [] [] [] [] none none

/-- The value of the spec's path-correctness test: an object whose nested b
member is a string where a number is required. -/
def c6value : JValue :=
  .obj [("a", .obj [("b", .str "x")])]

/-- Bare lazy back-reference node of the cyclic witness graph: a link to the
node definition in the Reference Table, carrying no other keyword. -/
def cycRef : Schema :=
  .mk none none none none none none none none none false none [] [] [] [] [] none
    (some "root#/definitions/node")

/-- Node schema of the cyclic witness graph: an object schema whose child
property is the lazy back-reference to the node itself — the spec's
self-referential definitions/node example. -/
def cycNode : Schema :=
  .mk (some [JKind.kObj]) none none none none none none none none false none
    [("child", cycRef)] [] [] [] [] none none

/-- Reference Table of the cyclic witness graph. -/
def cycTbl : List (String × Schema) :=
  [("root#/definitions/node", cycNode)]

/-- A nested matching value for the cyclic witness graph. -/
def cycVal : JValue :=
  .obj [("child", .obj [("child", .obj [])])]

/-- The dangling-reference schema of the spec's failure test. -/
def danglingSchema : JValue :=
  .obj [("$ref", .str "#/definitions/missing")]

/-- A self-referential schema: definitions/node refers to itself through its
child property, the non-fatal cycle case. -/
def cyclicSchema : JValue :=
  .obj [("properties", .obj [("child", .obj [("$ref", .str "#/definitions/node")])]),
        ("definitions", .obj [("node",
          .obj [("properties", .obj [("child", .obj [("$ref", .str "#/definitions/node")])])])])]

/-- A schema referencing the same external document from two distinct
locations. -/
def twoRefSchema : JValue :=
  .obj [("x", .obj [("$ref", .str "ext.json#/a")]),
        ("y", .obj [("$ref", .str "ext.json#/a")])]

/-- Fetch capability serving exactly the external document ext.json. -/
def extFetch : String → Option JValue :=
  fun u => if u = "ext.json" then some (.obj [("a", .obj [("type", .str "number")])]) else none

/-- A ready editor with a change frame pending (firing_change raised),
about to be destroyed. -/
def c5editor : JSONEditor :=
  { ready := true, destroyed := false, firing_change := true,
    schema := some .null, options := some (), root := some .null,
    root_container := some (), validator := some ⟨Schema.empty, [], []⟩,
    validation_results := some [], theme := some (), iconlib := some (),
    template := some (), dataMap := some (), elementHTML := "div",
    dataThemeAttr := some "html" }

/-- A ready, idle editor used to exercise the validate method. -/
def c8editor : JSONEditor :=
  { ready := true, destroyed := false, firing_change := false,
    schema := some .null, options := some (), root := some .null,
    root_container := some (), validator := some ⟨Schema.empty, [], []⟩,
    validation_results := some [], theme := some (), iconlib := some (),
    template := some (), dataMap := some (), elementHTML := "div",
    dataThemeAttr := some "html" }

/-- An editor that never became ready. -/
def c9editor : JSONEditor :=
  { ready := false, destroyed := false, firing_change := false,
    schema := some .null, options := some (), root := none,
    root_container := none, validator := none, validation_results := none,
    theme := some (), iconlib := some (), template := some (),
    dataMap := some (), elementHTML := "div", dataThemeAttr := some "html" }

/-- A ready editor used to exercise destroy. -/
def c10editor : JSONEditor :=
  { ready := true, destroyed := false, firing_change := false,
    schema := some .null, options := some (), root := some .null,
    root_container := some (), validator := some ⟨Schema.empty, [], []⟩,
    validation_results := some [], theme := some (), iconlib := some (),
    template := some (), dataMap := some (), elementHTML := "div",
    dataThemeAttr := some "html" }

/-- Boolean success test for an Except value. -/
def okB {ε α : Type} : Except ε α → Bool
  | .ok _ => true
  | .error _ => false

/-- Invariant of the loader state: every URI already fetched is a key of the
Reference Table, and no URI was fetched twice. -/
def LoadInv (st : LoaderSt) : Prop :=
  (∀ u ∈ fetchLog st.events, u ∈ st.docs.map Prod.fst) ∧ (fetchLog st.events).Nodup

/-! Helper lemmas about the termination measure and the Except monad. -/

attribute [simp] jSize jSizeList jSizeFields schSize optSchSize schPropsSize schListSize

lemma okB_iff {ε α : Type} {x : Except ε α} : okB x = true ↔ ∃ a, x = .ok a := by
  cases x <;> simp [okB]

lemma okB_bind {ε α β : Type} {x : Except ε α} {f : α → Except ε β}
    (hx : okB x = true) (hf : ∀ a, x = .ok a → okB (f a) = true) :
    okB (x >>= f) = true := by
  cases x with
  | ok a => exact hf a rfl
  | error e => simp [okB] at hx

lemma okB_pure {ε α : Type} (a : α) : okB (pure a : Except ε α) = true := rfl

lemma sz_itemsK {s : Schema} {its : Schema} (h : s.itemsK = some its) :
    schSize its < schSize s := by
  cases s with
  | mk t e mi ma mil mal f mni mxi u itsK props req aOf anyO oneO notS =>
    simp [Schema.itemsK] at h
    subst h
    simp
    omega

lemma sz_notK {s : Schema} {ns : Schema} (h : s.notK = some ns) :
    schSize ns < schSize s := by
  cases s with
  | mk t e mi ma mil mal f mni mxi u itsK props req aOf anyO oneO notS =>
    simp [Schema.notK] at h
    subst h
    simp
    omega

lemma sz_propsK (s : Schema) : schPropsSize s.propsK < schSize s := by
  cases s with
  | mk t e mi ma mil mal f mni mxi u itsK props req aOf anyO oneO notS =>
    simp [Schema.propsK]
    omega

lemma sz_allOfK (s : Schema) : schListSize s.allOfK < schSize s := by
  cases s with
  | mk t e mi ma mil mal f mni mxi u itsK props req aOf anyO oneO notS =>
    simp [Schema.allOfK]
    omega

lemma sz_anyOfK (s : Schema) : schListSize s.anyOfK < schSize s := by
  cases s with
  | mk t e mi ma mil mal f mni mxi u itsK props req aOf anyO oneO notS =>
    simp [Schema.anyOfK]
    omega

lemma sz_oneOfK (s : Schema) : schListSize s.oneOfK < schSize s := by
  cases s with
  | mk t e mi ma mil mal f mni mxi u itsK props req aOf anyO oneO notS =>
    simp [Schema.oneOfK]
    omega

lemma sz_fieldsOf {v : JValue} {fields : List (String × JValue)}
    (h : fieldsOf v = some fields) : jSizeFields fields < jSize v := by
  cases v <;> simp [fieldsOf] at h
  subst h
  simp

lemma sz_findVal {fields : List (String × JValue)} {k : String} {w : JValue}
    (h : findVal fields k = some w) : jSize w < jSizeFields fields := by
  induction fields with
  | nil => simp [findVal] at h
  | cons hd rest ih =>
    obtain ⟨k1, w1⟩ := hd
    simp only [findVal] at h
    split at h
    · cases h
      simp
      omega
    · have := ih h
      simp
      omega

lemma runCVs_ok {cvs : List CustomV}
    (hc : ∀ f ∈ cvs, ∀ s v p, okB (f s v p) = true) (s : Schema) (v : JValue)
    (p : List PTok) : okB (runCVs cvs s v p) = true := by
  induction cvs with
  | nil => rfl
  | cons f rest ih =>
    simp only [runCVs]
    apply okB_bind (hc f (by simp) s v p)
    intro a _
    apply okB_bind (ih (fun g hg => hc g (by simp [hg])))
    intro b _
    rfl

lemma schSize_pos (s : Schema) : 1 ≤ schSize s := by
  cases s with
  | mk t e mi ma mil mal f mni mxi u itsK props req aOf anyO oneO notS rK =>
    simp

lemma le_budgetOf_of_mem {rank : String → Nat} {us : List String} {u : String}
    (h : u ∈ us) : rank u + 1 ≤ budgetOf rank us := by
  induction us with
  | nil => simp at h
  | cons a rest ih =>
    simp only [budgetOf]
    rcases List.mem_cons.1 h with rfl | h2
    · exact Nat.le_max_left _ _
    · exact le_trans (ih h2) (Nat.le_max_right _ _)

lemma budgetOf_le_iff {rank : String → Nat} {us : List String} {b : Nat} :
    budgetOf rank us ≤ b ↔ ∀ u ∈ us, rank u + 1 ≤ b := by
  induction us with
  | nil => simp [budgetOf]
  | cons a rest ih => simp [budgetOf, max_le_iff, ih]

lemma budgetOf_mono {rank : String → Nat} {us vs : List String}
    (h : us ⊆ vs) : budgetOf rank us ≤ budgetOf rank vs :=
  budgetOf_le_iff.2 fun u hu => le_budgetOf_of_mem (h hu)

lemma budgetOf_le_of_rank_le {rank : String → Nat} {us : List String} {L : Nat}
    (h : ∀ u, rank u ≤ L) : budgetOf rank us ≤ L + 1 :=
  budgetOf_le_iff.2 fun u _ => by have := h u; omega

lemma sameValRefs_mk (t : Option (List JKind)) (e : Option (List JValue))
    (mi ma : Option Rat) (mil mal : Option Nat) (f : Option String)
    (mni mxi : Option Nat) (u : Bool) (itsK : Option Schema)
    (props : List (String × Schema)) (req : List String)
    (aOf anyO oneO : List Schema) (notS : Option Schema) (rK : Option String) :
    sameValRefs (Schema.mk t e mi ma mil mal f mni mxi u itsK props req aOf anyO oneO notS rK) =
      (match rK with
       | some u2 => [u2]
       | none => []) ++
      sameValRefsList aOf ++ sameValRefsList anyO ++ sameValRefsList oneO ++
      (match notS with
       | some ns => sameValRefs ns
       | none => []) := by
  rw [sameValRefs.eq_def]

lemma sameValRefsList_cons (s : Schema) (rest : List Schema) :
    sameValRefsList (s :: rest) = sameValRefs s ++ sameValRefsList rest := by
  rw [sameValRefsList.eq_def]

lemma sameValRefsList_nil : sameValRefsList [] = [] := by
  rw [sameValRefsList.eq_def]

lemma svr_allOf (s : Schema) : sameValRefsList s.allOfK ⊆ sameValRefs s := by
  cases s with
  | mk t e mi ma mil mal f mni mxi u itsK props req aOf anyO oneO notS rK =>
    intro x hx
    simp only [Schema.allOfK] at hx
    rw [sameValRefs_mk]
    simp only [List.mem_append]
    tauto

lemma svr_anyOf (s : Schema) : sameValRefsList s.anyOfK ⊆ sameValRefs s := by
  cases s with
  | mk t e mi ma mil mal f mni mxi u itsK props req aOf anyO oneO notS rK =>
    intro x hx
    simp only [Schema.anyOfK] at hx
    rw [sameValRefs_mk]
    simp only [List.mem_append]
    tauto

lemma svr_oneOf (s : Schema) : sameValRefsList s.oneOfK ⊆ sameValRefs s := by
  cases s with
  | mk t e mi ma mil mal f mni mxi u itsK props req aOf anyO oneO notS rK =>
    intro x hx
    simp only [Schema.oneOfK] at hx
    rw [sameValRefs_mk]
    simp only [List.mem_append]
    tauto

lemma svr_not {s ns : Schema} (h : s.notK = some ns) :
    sameValRefs ns ⊆ sameValRefs s := by
  cases s with
  | mk t e mi ma mil mal f mni mxi u itsK props req aOf anyO oneO notS rK =>
    simp only [Schema.notK] at h
    subst h
    intro x hx
    rw [sameValRefs_mk]
    simp only [List.mem_append]
    tauto

lemma svr_ref {s : Schema} {u : String} (h : s.refK = some u) :
    u ∈ sameValRefs s := by
  cases s with
  | mk t e mi ma mil mal f mni mxi u2 itsK props req aOf anyO oneO notS rK =>
    simp only [Schema.refK] at h
    subst h
    rw [sameValRefs_mk]
    simp

lemma phase_lt_K {rank : String → Nat} {C L : Nat} {x : Schema}
    (hs : schSize x < C) (hr : ∀ u, rank u ≤ L) :
    phase rank C x < C * (L + 2) := by
  have hb : refBudget rank x ≤ L + 1 := budgetOf_le_of_rank_le hr
  have h2 : C * refBudget rank x ≤ C * (L + 1) := Nat.mul_le_mul_left C hb
  have h3 : C * (L + 2) = C * (L + 1) + C := by ring
  simp only [phase]
  omega

lemma schSize_le_phase (rank : String → Nat) (C : Nat) (x : Schema) :
    schSize x ≤ phase rank C x := by
  simp only [phase]
  omega

lemma phaseList_lt_phase {rank : String → Nat} {C : Nat} {bs : List Schema}
    {s : Schema} (hsub : sameValRefsList bs ⊆ sameValRefs s)
    (hsz : schListSize bs < schSize s) :
    phaseList rank C bs < phase rank C s := by
  have h1 : C * budgetOf rank (sameValRefsList bs) ≤
      C * budgetOf rank (sameValRefs s) :=
    Nat.mul_le_mul_left C (budgetOf_mono hsub)
  simp only [phaseList, phase, refBudget]
  omega

lemma phase_lt_phase_of_not {rank : String → Nat} {C : Nat} {s ns : Schema}
    (h : s.notK = some ns) : phase rank C ns < phase rank C s := by
  have h1 : C * budgetOf rank (sameValRefs ns) ≤
      C * budgetOf rank (sameValRefs s) :=
    Nat.mul_le_mul_left C (budgetOf_mono (svr_not h))
  have h2 := sz_notK h
  simp only [phase, refBudget]
  omega

lemma phase_head_lt (rank : String → Nat) (C : Nat) (b : Schema)
    (rest : List Schema) : phase rank C b < phaseList rank C (b :: rest) := by
  have h1 : C * budgetOf rank (sameValRefs b) ≤
      C * budgetOf rank (sameValRefsList (b :: rest)) := by
    refine Nat.mul_le_mul_left C (budgetOf_mono ?_)
    intro x hx
    rw [sameValRefsList_cons]
    exact List.mem_append.2 (Or.inl hx)
  have h2 : schSize b < schListSize (b :: rest) := by
    simp
    omega
  simp only [phase, phaseList, refBudget]
  omega

lemma phaseList_tail_lt (rank : String → Nat) (C : Nat) (b : Schema)
    (rest : List Schema) :
    phaseList rank C rest < phaseList rank C (b :: rest) := by
  have h1 : C * budgetOf rank (sameValRefsList rest) ≤
      C * budgetOf rank (sameValRefsList (b :: rest)) := by
    refine Nat.mul_le_mul_left C (budgetOf_mono ?_)
    intro x hx
    rw [sameValRefsList_cons]
    exact List.mem_append.2 (Or.inr hx)
  have h2 : schListSize rest < schListSize (b :: rest) := by
    have := schSize_pos b
    simp
    omega
  simp only [phaseList, refBudget]
  omega

lemma phase_deref_lt {rank : String → Nat} {C : Nat}
    {tbl : List (String × Schema)} {s target : Schema} {u : String}
    (href : s.refK = some u) (htg : findVal tbl u = some target)
    (hwf : ∀ u1 s2, findVal tbl u1 = some s2 →
      ∀ u2 ∈ sameValRefs s2, rank u2 < rank u1)
    (hsz : schSize target < C) :
    phase rank C target < phase rank C s := by
  have hb1 : budgetOf rank (sameValRefs target) ≤ rank u :=
    budgetOf_le_iff.2 fun u2 hu2 => hwf u target htg u2 hu2
  have hb2 : rank u + 1 ≤ budgetOf rank (sameValRefs s) :=
    le_budgetOf_of_mem (svr_ref href)
  have h1 : C * budgetOf rank (sameValRefs target) ≤ C * rank u :=
    Nat.mul_le_mul_left C hb1
  have h2 : C * (rank u + 1) ≤ C * budgetOf rank (sameValRefs s) :=
    Nat.mul_le_mul_left C hb2
  have h3 : C * (rank u + 1) = C * rank u + C := by ring
  simp only [phase, refBudget]
  omega

lemma findVal_tblSchSize {tbl : List (String × Schema)} {u : String}
    {s2 : Schema} (h : findVal tbl u = some s2) :
    schSize s2 < tblSchSize tbl + 1 := by
  induction tbl with
  | nil => simp [findVal] at h
  | cons hd rest ih =>
    obtain ⟨k, e⟩ := hd
    simp only [findVal] at h
    split at h
    · cases h
      simp [tblSchSize]
      omega
    · have := ih h
      simp [tblSchSize]
      omega

lemma vFuel_ok (cvs : List CustomV) (tbl : List (String × Schema))
    (rank : String → Nat) (C L : Nat)
    (hc : ∀ f ∈ cvs, ∀ s v p, okB (f s v p) = true)
    (hwf : ∀ u s2, findVal tbl u = some s2 → ∀ u2 ∈ sameValRefs s2, rank u2 < rank u)
    (hrank : ∀ u, rank u ≤ L)
    (htbl : ∀ u s2, findVal tbl u = some s2 → schSize s2 < C) :
    ∀ fuel : Nat,
      (∀ s v p, schSize s < C →
        jSize v * (C * (L + 2)) + phase rank C s < fuel →
        okB (vFuel fuel cvs tbl s v p) = true) ∧
      (∀ its elems i p, schSize its < C →
        jSizeList elems * (C * (L + 2)) + phase rank C its + 1 < fuel →
        okB (vItemsFuel fuel cvs tbl its elems i p) = true) ∧
      (∀ props fields p, schPropsSize props < C →
        jSizeFields fields * (C * (L + 2)) + schPropsSize props + 1 < fuel →
        okB (vPropsFuel fuel cvs tbl props fields p) = true) ∧
      (∀ bs v p, schListSize bs < C →
        jSize v * (C * (L + 2)) + phaseList rank C bs < fuel →
        okB (vBranchesFuel fuel cvs tbl bs v p) = true) := by
  intro fuel
  induction fuel with
  | zero => refine ⟨?_, ?_, ?_, ?_⟩ <;> (intros; omega)
  | succ fuel ih =>
    obtain ⟨ihV, ihI, ihP, ihB⟩ := ih
    refine ⟨?_, ?_, ?_, ?_⟩
    · intro s v p hsC hm
      have hsp := schSize_pos s
      have hphase1 : 1 ≤ phase rank C s := le_trans hsp (schSize_le_phase rank C s)
      simp only [vFuel]
      apply okB_bind
      · rcases hits : s.itemsK with _ | its
        · cases v <;> rfl
        · have h1 := sz_itemsK hits
          cases v with
          | arr elems =>
            refine ihI its elems 0 p (by omega) ?_
            have hv : jSize (JValue.arr elems) = jSizeList elems + 1 := by simp
            rw [hv] at hm
            have hdist : (jSizeList elems + 1) * (C * (L + 2)) =
                jSizeList elems * (C * (L + 2)) + C * (L + 2) := by ring
            rw [hdist] at hm
            have hpi : phase rank C its < C * (L + 2) := phase_lt_K (by omega) hrank
            omega
          | null => rfl
          | bool b => rfl
          | num q => rfl
          | str t => rfl
          | obj fs => rfl
      intro itemErrs _
      apply okB_bind
      · rcases hfl : fieldsOf v with _ | fields
        · rfl
        · have h1 := sz_fieldsOf hfl
          have h2 := sz_propsK s
          refine ihP s.propsK fields p (by omega) ?_
          have hv : jSizeFields fields + 1 ≤ jSize v := h1
          have hd : (jSizeFields fields + 1) * (C * (L + 2)) ≤
              jSize v * (C * (L + 2)) := Nat.mul_le_mul_right _ hv
          have hdist : (jSizeFields fields + 1) * (C * (L + 2)) =
              jSizeFields fields * (C * (L + 2)) + C * (L + 2) := by ring
          have hCle : C * 1 ≤ C * (L + 2) := Nat.mul_le_mul_left C (by omega)
          have hCle2 : C * 1 = C := by ring
          omega
      intro propErrs _
      apply okB_bind
      · apply okB_bind
        · have h1 := sz_allOfK s
          refine ihB s.allOfK v p (by omega) ?_
          have hpl : phaseList rank C s.allOfK < phase rank C s :=
            phaseList_lt_phase (svr_allOf s) h1
          omega
        intro rs _
        rfl
      intro allOfErrs _
      apply okB_bind
      · rcases hany : s.anyOfK with _ | ⟨b, br⟩
        · rfl
        · have h1 := sz_anyOfK s
          rw [hany] at h1
          apply okB_bind
          · refine ihB (b :: br) v p (by omega) ?_
            have hpl : phaseList rank C (b :: br) < phase rank C s := by
              rw [← hany]
              exact phaseList_lt_phase (svr_anyOf s) (by rw [hany]; exact h1)
            omega
          intro rs _
          rfl
      intro anyOfErrs _
      apply okB_bind
      · rcases hone : s.oneOfK with _ | ⟨b, br⟩
        · rfl
        · have h1 := sz_oneOfK s
          rw [hone] at h1
          apply okB_bind
          · refine ihB (b :: br) v p (by omega) ?_
            have hpl : phaseList rank C (b :: br) < phase rank C s := by
              rw [← hone]
              exact phaseList_lt_phase (svr_oneOf s) (by rw [hone]; exact h1)
            omega
          intro rs _
          rfl
      intro oneOfErrs _
      apply okB_bind
      · rcases hnot : s.notK with _ | ns
        · rfl
        · have h1 := sz_notK hnot
          apply okB_bind
          · refine ihV ns v p (by omega) ?_
            have hpl : phase rank C ns < phase rank C s :=
              phase_lt_phase_of_not hnot
            omega
          intro r _
          rfl
      intro notErrs _
      apply okB_bind
      · split
        · rfl
        · rename_i u href
          split
          · rename_i target htg
            refine ihV target v p (htbl u target htg) ?_
            have hpl : phase rank C target < phase rank C s :=
              phase_deref_lt href htg hwf (htbl u target htg)
            omega
          · rfl
      intro refErrs _
      apply okB_bind (runCVs_ok hc s v p)
      intro cvErrs _
      rfl
    · intro its elems i p hsC hm
      have hsp := schSize_pos its
      have hKpos : 0 < C * (L + 2) := Nat.mul_pos (by omega) (by omega)
      simp only [vItemsFuel]
      cases elems with
      | nil => rfl
      | cons e rest =>
        have hd : jSizeList (e :: rest) = jSize e + jSizeList rest + 1 := by simp
        rw [hd] at hm
        have hdist : (jSize e + jSizeList rest + 1) * (C * (L + 2)) =
            jSize e * (C * (L + 2)) + jSizeList rest * (C * (L + 2)) +
            C * (L + 2) := by ring
        rw [hdist] at hm
        apply okB_bind
        · refine ihV its e (p ++ [PTok.idx i]) hsC ?_
          omega
        intro e1 _
        apply okB_bind
        · refine ihI its rest (i + 1) p hsC ?_
          omega
        intro more _
        rfl
    · intro props fields p hsC hm
      simp only [vPropsFuel]
      cases props with
      | nil => rfl
      | cons hd0 rest =>
        obtain ⟨k, cs⟩ := hd0
        have hsp := schSize_pos cs
        have hcons : schPropsSize ((k, cs) :: rest) =
            schSize cs + schPropsSize rest + 1 := by simp
        rw [hcons] at hm hsC
        apply okB_bind
        · rcases hw : findVal fields k with _ | w
          · rfl
          · have h1 := sz_findVal hw
            refine ihV cs w (p ++ [PTok.key k]) (by omega) ?_
            have hps : phase rank C cs < C * (L + 2) :=
              phase_lt_K (by omega) hrank
            have hd2 : (jSize w + 1) * (C * (L + 2)) ≤
                jSizeFields fields * (C * (L + 2)) :=
              Nat.mul_le_mul_right _ (by omega)
            have hd3 : (jSize w + 1) * (C * (L + 2)) =
                jSize w * (C * (L + 2)) + C * (L + 2) := by ring
            omega
        intro e1 _
        apply okB_bind
        · refine ihP rest fields p (by omega) ?_
          omega
        intro more _
        rfl
    · intro bs v p hsC hm
      simp only [vBranchesFuel]
      cases bs with
      | nil => rfl
      | cons b rest =>
        have hsp := schSize_pos b
        have hcons : schListSize (b :: rest) =
            schSize b + schListSize rest + 1 := by simp
        have hb1 : phase rank C b < phaseList rank C (b :: rest) :=
          phase_head_lt rank C b rest
        have hb2 : phaseList rank C rest < phaseList rank C (b :: rest) :=
          phaseList_tail_lt rank C b rest
        apply okB_bind
        · refine ihV b v p (by omega) ?_
          omega
        intro r _
        apply okB_bind
        · refine ihB rest v p (by omega) ?_
          omega
        intro rs _
        rfl

lemma pure_eq_ok {ε α : Type} {a b : α} (h : (pure a : Except ε α) = .ok b) : a = b := by
  cases h
  rfl

lemma bind_eq_ok {ε α β : Type} {x : Except ε α} {f : α → Except ε β} {b : β}
    (h : x >>= f = .ok b) : ∃ a, x = .ok a ∧ f a = .ok b := by
  cases x with
  | ok a => exact ⟨a, rfl, h⟩
  | error e => exact absurd h (by simp [Bind.bind, Except.bind])

lemma mkErr_path (p : List PTok) (prop msg : String) : (mkErr p prop msg).path = p := rfl

lemma scalarChecks_path {s : Schema} {v : JValue} {p : List PTok} {e : VError}
    (h : e ∈ scalarChecks s v p) : e.path = p := by
  simp only [scalarChecks, List.mem_append] at h
  rcases h with ((h | h) | h) | h
  · split at h
    · simp at h
    · split at h
      · simp at h
      · simp at h
        subst h
        rfl
  · split at h
    · simp at h
    · split at h
      · simp at h
      · simp at h
        subst h
        rfl
  · split at h
    · rcases List.mem_append.1 h with h | h
      · split at h
        · split at h
          · simp at h
            subst h
            rfl
          · simp at h
        · simp at h
      · split at h
        · split at h
          · simp at h
            subst h
            rfl
          · simp at h
        · simp at h
    · simp at h
  · split at h
    · rcases List.mem_append.1 h with h | h
      · rcases List.mem_append.1 h with h | h
        · split at h
          · split at h
            · simp at h
              subst h
              rfl
            · simp at h
          · simp at h
        · split at h
          · split at h
            · simp at h
              subst h
              rfl
            · simp at h
          · simp at h
      · split at h
        · simp only [formatCheck] at h
          split at h
          · split at h
            · simp at h
            · simp at h
              subst h
              rfl
          · simp at h
        · simp at h
    · simp at h

lemma arrayCountChecks_path {s : Schema} {v : JValue} {p : List PTok} {e : VError}
    (h : e ∈ arrayCountChecks s v p) : e.path = p := by
  simp only [arrayCountChecks] at h
  split at h
  · rcases List.mem_append.1 h with h | h
    · rcases List.mem_append.1 h with h | h
      · split at h
        · split at h
          · simp at h
            subst h
            rfl
          · simp at h
        · simp at h
      · split at h
        · split at h
          · simp at h
            subst h
            rfl
          · simp at h
        · simp at h
    · split at h
      · simp at h
        subst h
        rfl
      · simp at h
  · simp at h

lemma requiredChecks_path {s : Schema} {v : JValue} {p : List PTok} {e : VError}
    (h : e ∈ requiredChecks s v p) : ∃ q, e.path = p ++ q := by
  simp only [requiredChecks] at h
  split at h
  · rcases List.mem_filterMap.1 h with ⟨k, _, hk⟩
    split at hk
    · simp at hk
    · simp at hk
      subst hk
      exact ⟨[PTok.key k], rfl⟩
  · simp at h

lemma combineAnyOf_path {p : List PTok} {rs : List (List VError)} {e : VError}
    (h : e ∈ combineAnyOf p rs) : e.path = p ∨ ∃ r ∈ rs, e ∈ r := by
  simp only [combineAnyOf] at h
  split at h
  · simp at h
  · rcases List.mem_cons.1 h with h | h
    · left
      subst h
      rfl
    · right
      simpa using List.mem_flatten.1 h

lemma combineOneOf_path {p : List PTok} {rs : List (List VError)} {e : VError}
    (h : e ∈ combineOneOf p rs) : e.path = p ∨ ∃ r ∈ rs, e ∈ r := by
  simp only [combineOneOf] at h
  split at h
  · simp at h
  · split at h
    · rcases List.mem_cons.1 h with h | h
      · left
        subst h
        rfl
      · right
        simpa using List.mem_flatten.1 h
    · simp at h
      left
      subst h
      rfl

lemma vFuel_path (tbl : List (String × Schema)) :
    ∀ fuel : Nat,
      (∀ s v p es, vFuel fuel [] tbl s v p = .ok es →
        ∀ e ∈ es, ∃ q, e.path = p ++ q) ∧
      (∀ its elems i p es, vItemsFuel fuel [] tbl its elems i p = .ok es →
        ∀ e ∈ es, ∃ q, e.path = p ++ q) ∧
      (∀ props fields p es, vPropsFuel fuel [] tbl props fields p = .ok es →
        ∀ e ∈ es, ∃ q, e.path = p ++ q) ∧
      (∀ bs v p rs, vBranchesFuel fuel [] tbl bs v p = .ok rs →
        ∀ r ∈ rs, ∀ e ∈ r, ∃ q, e.path = p ++ q) := by
  intro fuel
  induction fuel with
  | zero =>
    refine ⟨?_, ?_, ?_, ?_⟩
    · intro s v p es h
      simp [vFuel] at h
    · intro its elems i p es h
      simp [vItemsFuel] at h
    · intro props fields p es h
      simp [vPropsFuel] at h
    · intro bs v p rs h
      simp [vBranchesFuel] at h
  | succ fuel ih =>
    obtain ⟨ihV, ihI, ihP, ihB⟩ := ih
    refine ⟨?_, ?_, ?_, ?_⟩
    · intro s v p es h e he
      simp only [vFuel] at h
      obtain ⟨itemErrs, h1, h⟩ := bind_eq_ok h
      obtain ⟨propErrs, h2, h⟩ := bind_eq_ok h
      obtain ⟨allOfErrs, h3, h⟩ := bind_eq_ok h
      obtain ⟨anyOfErrs, h4, h⟩ := bind_eq_ok h
      obtain ⟨oneOfErrs, h5, h⟩ := bind_eq_ok h
      obtain ⟨notErrs, h6, h⟩ := bind_eq_ok h
      obtain ⟨refErrs, h7, h⟩ := bind_eq_ok h
      obtain ⟨cvErrs, h8, h⟩ := bind_eq_ok h
      replace h := pure_eq_ok h
      subst h
      simp only [List.mem_append] at he
      rcases he with
        (((((((((hm | hm) | hm) | hm) | hm) | hm) | hm) | hm) | hm) | hm) | hm
      · exact ⟨[], by simp [scalarChecks_path hm]⟩
      · exact ⟨[], by simp [arrayCountChecks_path hm]⟩
      · rcases hits : s.itemsK with _ | its
        · rw [hits] at h1
          cases v <;> (replace h1 := pure_eq_ok h1; subst h1; simp at hm)
        · rw [hits] at h1
          cases v with
          | arr elems => exact ihI its elems 0 p itemErrs h1 e hm
          | null =>
            replace h1 := pure_eq_ok h1
            subst h1
            simp at hm
          | bool b =>
            replace h1 := pure_eq_ok h1
            subst h1
            simp at hm
          | num q =>
            replace h1 := pure_eq_ok h1
            subst h1
            simp at hm
          | str t =>
            replace h1 := pure_eq_ok h1
            subst h1
            simp at hm
          | obj fs =>
            replace h1 := pure_eq_ok h1
            subst h1
            simp at hm
      · exact requiredChecks_path hm
      · rcases hfl : fieldsOf v with _ | fields
        · rw [hfl] at h2
          replace h2 := pure_eq_ok h2
          subst h2
          simp at hm
        · rw [hfl] at h2
          exact ihP s.propsK fields p propErrs h2 e hm
      · obtain ⟨rs, h3a, h3b⟩ := bind_eq_ok h3
        replace h3b := pure_eq_ok h3b
        subst h3b
        rcases List.mem_flatten.1 hm with ⟨r, hr, her⟩
        exact ihB s.allOfK v p rs h3a r hr e her
      · rcases hany : s.anyOfK with _ | ⟨b, br⟩
        · rw [hany] at h4
          replace h4 := pure_eq_ok h4
          subst h4
          simp at hm
        · rw [hany] at h4
          obtain ⟨rs, h4a, h4b⟩ := bind_eq_ok h4
          replace h4b := pure_eq_ok h4b
          subst h4b
          rcases combineAnyOf_path hm with hp | ⟨r, hr, her⟩
          · exact ⟨[], by simp [hp]⟩
          · exact ihB (b :: br) v p rs h4a r hr e her
      · rcases hone : s.oneOfK with _ | ⟨b, br⟩
        · rw [hone] at h5
          replace h5 := pure_eq_ok h5
          subst h5
          simp at hm
        · rw [hone] at h5
          obtain ⟨rs, h5a, h5b⟩ := bind_eq_ok h5
          replace h5b := pure_eq_ok h5b
          subst h5b
          rcases combineOneOf_path hm with hp | ⟨r, hr, her⟩
          · exact ⟨[], by simp [hp]⟩
          · exact ihB (b :: br) v p rs h5a r hr e her
      · rcases hnot : s.notK with _ | ns
        · rw [hnot] at h6
          replace h6 := pure_eq_ok h6
          subst h6
          simp at hm
        · rw [hnot] at h6
          obtain ⟨r, h6a, h6b⟩ := bind_eq_ok h6
          replace h6b := pure_eq_ok h6b
          subst h6b
          split at hm
          · simp at hm
            subst hm
            exact ⟨[], by simp [mkErr]⟩
          · simp at hm
      · split at h7
        · replace h7 := pure_eq_ok h7
          subst h7
          simp at hm
        · split at h7
          · rename_i target htg
            exact ihV target v p refErrs h7 e hm
          · replace h7 := pure_eq_ok h7
            subst h7
            simp at hm
            subst hm
            exact ⟨[], by simp [mkErr]⟩
      · simp only [runCVs] at h8
        replace h8 := pure_eq_ok h8
        subst h8
        simp at hm
    · intro its elems i p es h e he
      simp only [vItemsFuel] at h
      cases elems with
      | nil =>
        replace h := pure_eq_ok h
        subst h
        simp at he
      | cons e2 rest =>
        obtain ⟨e1, ha, h⟩ := bind_eq_ok h
        obtain ⟨more, hb, h⟩ := bind_eq_ok h
        replace h := pure_eq_ok h
        subst h
        rcases List.mem_append.1 he with hm | hm
        · obtain ⟨q, hq⟩ := ihV its e2 (p ++ [PTok.idx i]) e1 ha e hm
          exact ⟨[PTok.idx i] ++ q, by rw [hq, List.append_assoc]⟩
        · exact ihI its rest (i + 1) p more hb e hm
    · intro props fields p es h e he
      simp only [vPropsFuel] at h
      cases props with
      | nil =>
        replace h := pure_eq_ok h
        subst h
        simp at he
      | cons hd rest =>
        obtain ⟨k, cs⟩ := hd
        obtain ⟨e1, ha, h⟩ := bind_eq_ok h
        obtain ⟨more, hb, h⟩ := bind_eq_ok h
        replace h := pure_eq_ok h
        subst h
        rcases List.mem_append.1 he with hm | hm
        · rcases hw : findVal fields k with _ | w
          · rw [hw] at ha
            replace ha := pure_eq_ok ha
            subst ha
            simp at hm
          · rw [hw] at ha
            obtain ⟨q, hq⟩ := ihV cs w (p ++ [PTok.key k]) e1 ha e hm
            exact ⟨[PTok.key k] ++ q, by rw [hq, List.append_assoc]⟩
        · exact ihP rest fields p more hb e hm
    · intro bs v p rs h r hr e her
      simp only [vBranchesFuel] at h
      cases bs with
      | nil =>
        replace h := pure_eq_ok h
        subst h
        simp at hr
      | cons b rest =>
        obtain ⟨r1, ha, h⟩ := bind_eq_ok h
        obtain ⟨rs1, hb, h⟩ := bind_eq_ok h
        replace h := pure_eq_ok h
        subst h
        rcases List.mem_cons.1 hr with rfl | hm
        · exact ihV b v p _ ha e her
        · exact ihB rest v p rs1 hb r hm e her

lemma findVal_none_not_mem {α : Type} {l : List (String × α)} {k : String}
    (h : findVal l k = none) : k ∉ l.map Prod.fst := by
  induction l with
  | nil => simp
  | cons hd rest ih =>
    obtain ⟨k1, w1⟩ := hd
    simp only [findVal] at h
    split at h
    · cases h
    · simp only [List.map_cons, List.mem_cons]
      rintro (rfl | hm)
      · simp at *
      · exact ih h hm

lemma fetchLog_append (a b : List LEvent) :
    fetchLog (a ++ b) = fetchLog a ++ fetchLog b := by
  simp [fetchLog]

lemma resolvedCount_append (a b : List LEvent) :
    resolvedCount (a ++ b) = resolvedCount a + resolvedCount b := by
  simp [resolvedCount]

lemma getDoc_inv (fetch : String → Option JValue) (st : LoaderSt) (uri : String)
    (hi : LoadInv st) :
    LoadInv (getDoc fetch st uri).2 ∧
      resolvedCount (getDoc fetch st uri).2.events = resolvedCount st.events := by
  simp only [getDoc]
  split
  · exact ⟨hi, rfl⟩
  · rename_i x hnone
    split
    · rename_i d hd
      refine ⟨⟨?_, ?_⟩, ?_⟩
      · intro u hu
        rw [fetchLog_append] at hu
        rcases List.mem_append.1 hu with hu | hu
        · exact List.mem_cons_of_mem _ (hi.1 u hu)
        · have hu2 : u = uri := by simpa [fetchLog] using hu
          subst hu2
          simp
      · rw [fetchLog_append]
        have huniq : uri ∉ fetchLog st.events := fun hmem =>
          findVal_none_not_mem hnone (hi.1 uri hmem)
        have h1 : fetchLog [LEvent.fetched uri] = [uri] := by simp [fetchLog]
        rw [h1, List.nodup_append]
        refine ⟨hi.2, by simp, ?_⟩
        intro a ha hb
        simp at hb
        subst hb
        exact huniq ha
      · rw [resolvedCount_append]
        simp [resolvedCount]
    · exact ⟨hi, rfl⟩

lemma resolve_inv :
    ∀ fuel : Nat,
      (∀ fetch st stack curDoc curURI v, LoadInv st →
        LoadInv (resolveNode fuel fetch st stack curDoc curURI v).2 ∧
        resolvedCount (resolveNode fuel fetch st stack curDoc curURI v).2.events =
          resolvedCount st.events) ∧
      (∀ fetch st stack curDoc curURI fs, LoadInv st →
        LoadInv (resolveFields fuel fetch st stack curDoc curURI fs).2 ∧
        resolvedCount (resolveFields fuel fetch st stack curDoc curURI fs).2.events =
          resolvedCount st.events) ∧
      (∀ fetch st stack curDoc curURI xs, LoadInv st →
        LoadInv (resolveElems fuel fetch st stack curDoc curURI xs).2 ∧
        resolvedCount (resolveElems fuel fetch st stack curDoc curURI xs).2.events =
          resolvedCount st.events) := by
  intro fuel
  induction fuel with
  | zero =>
    refine ⟨?_, ?_, ?_⟩ <;> (intro fetch st stack curDoc curURI w hi; exact ⟨hi, rfl⟩)
  | succ fuel ih =>
    obtain ⟨ihN, ihF, ihE⟩ := ih
    refine ⟨?_, ?_, ?_⟩
    · intro fetch st stack curDoc curURI v hi
      simp only [resolveNode]
      split
      · rename_i r hr
        split
        · exact ⟨hi, rfl⟩
        · split
          · split
            · exact ⟨hi, rfl⟩
            · rename_i tgt htgt
              exact ihN fetch st
                (((splitRef curURI r).1 ++ "#" ++ (splitRef curURI r).2) :: stack)
                curDoc curURI tgt hi
          · split
            · rename_i d st2 hget
              have hg := getDoc_inv fetch st (splitRef curURI r).1 hi
              rw [hget] at hg
              split
              · exact hg
              · rename_i tgt htgt
                have h2 := ihN fetch st2
                  (((splitRef curURI r).1 ++ "#" ++ (splitRef curURI r).2) :: stack)
                  d (splitRef curURI r).1 tgt hg.1
                exact ⟨h2.1, h2.2.trans hg.2⟩
            · rename_i e st2 hget
              have hg := getDoc_inv fetch st (splitRef curURI r).1 hi
              rw [hget] at hg
              exact hg
      · split
        · rename_i fs hgr
          split
          · rename_i rfs st2 hres
            have h2 := ihF fetch st stack curDoc curURI fs hi
            rw [hres] at h2
            exact h2
          · rename_i e st2 hres
            have h2 := ihF fetch st stack curDoc curURI fs hi
            rw [hres] at h2
            exact h2
        · rename_i xs hgr
          split
          · rename_i rxs st2 hres
            have h2 := ihE fetch st stack curDoc curURI xs hi
            rw [hres] at h2
            exact h2
          · rename_i e st2 hres
            have h2 := ihE fetch st stack curDoc curURI xs hi
            rw [hres] at h2
            exact h2
        · exact ⟨hi, rfl⟩
        · exact ⟨hi, rfl⟩
        · exact ⟨hi, rfl⟩
        · exact ⟨hi, rfl⟩
    · intro fetch st stack curDoc curURI fs hi
      simp only [resolveFields]
      split
      · exact ⟨hi, rfl⟩
      · rename_i k w rest
        split
        · rename_i rw2 st2 hnode
          have h1 := ihN fetch st stack curDoc curURI w hi
          rw [hnode] at h1
          split
          · rename_i rrest st3 hrest
            have h2 := ihF fetch st2 stack curDoc curURI rest h1.1
            rw [hrest] at h2
            exact ⟨h2.1, h2.2.trans h1.2⟩
          · rename_i e st3 hrest
            have h2 := ihF fetch st2 stack curDoc curURI rest h1.1
            rw [hrest] at h2
            exact ⟨h2.1, h2.2.trans h1.2⟩
        · rename_i e st2 hnode
          have h1 := ihN fetch st stack curDoc curURI w hi
          rw [hnode] at h1
          exact h1
    · intro fetch st stack curDoc curURI xs hi
      simp only [resolveElems]
      split
      · exact ⟨hi, rfl⟩
      · rename_i x rest
        split
        · rename_i rx st2 hnode
          have h1 := ihN fetch st stack curDoc curURI x hi
          rw [hnode] at h1
          split
          · rename_i rrest st3 hrest
            have h2 := ihE fetch st2 stack curDoc curURI rest h1.1
            rw [hrest] at h2
            exact ⟨h2.1, h2.2.trans h1.2⟩
          · rename_i e st3 hrest
            have h2 := ihE fetch st2 stack curDoc curURI rest h1.1
            rw [hrest] at h2
            exact ⟨h2.1, h2.2.trans h1.2⟩
        · rename_i e st2 hnode
          have h1 := ihN fetch st stack curDoc curURI x hi
          rw [hnode] at h1
          exact h1

/-! Claim theorems. -/

lemma validateM_state_fix (s : JSONEditor) (args : List JValue) :
    (JSONEditor.validate s args).state = s := by
  simp only [JSONEditor.validate]
  split
  · rfl
  · split
    · split <;> rfl
    · rfl

lemma foldl_validateM_state (s : JSONEditor) (ws : List JValue) :
    ws.foldl (fun t w => (JSONEditor.validate t [w]).state) s = s := by
  induction ws with
  | nil => rfl
  | cons w rest ih =>
    rw [List.foldl_cons, validateM_state_fix]
    exact ih

/-- C1: for every well-formed resolved schema graph — root node plus backing
Reference Table, possibly cyclic, with cycles closing only through
data-consuming descent as the spec's cycle-handling contract guarantees —
and every data value, validate returns a (possibly empty) Validation Result
as data; as long as every caller-supplied custom validator returns normally,
validation never propagates a hard failure.  The Except error side, which is
distinguishable from every normal result, is reachable only through a custom
validator throwing. -/
theorem validate_never_throws_without_custom_throw :
    ∀ (cvs : List CustomV) (tbl : List (String × Schema)) (rank : String → Nat)
      (s : Schema) (v : JValue) (p : List PTok),
      WfGraph tbl rank →
      (∀ f ∈ cvs, ∀ s2 v2 p2, okB (f s2 v2 p2) = true) →
      okB (Validator.validate cvs tbl s v p) = true := by
  intro cvs tbl rank s v p hwf hc
  have htbl : ∀ u s2, findVal tbl u = some s2 →
      schSize s2 < schSize s + tblSchSize tbl + 1 := by
    intro u s2 h
    have := findVal_tblSchSize h
    omega
  have h := (vFuel_ok cvs tbl rank (schSize s + tblSchSize tbl + 1) tbl.length
      hc hwf.1 hwf.2 htbl
      ((jSize v + 1) * ((schSize s + tblSchSize tbl + 1) * (tbl.length + 2)))).1
  apply h s v p (by omega)
  have hps : phase rank (schSize s + tblSchSize tbl + 1) s <
      (schSize s + tblSchSize tbl + 1) * (tbl.length + 2) :=
    phase_lt_K (by omega) hwf.2
  have hdist : (jSize v + 1) *
      ((schSize s + tblSchSize tbl + 1) * (tbl.length + 2)) =
      jSize v * ((schSize s + tblSchSize tbl + 1) * (tbl.length + 2)) +
      (schSize s + tblSchSize tbl + 1) * (tbl.length + 2) := by ring
  omega

/-- Witness for C1 on a genuinely cyclic resolved graph: the table's node
schema refers back to itself through its child property; validating a nested
value against the bare back-reference root succeeds, and a nested mismatch
is reported through the dereferenced cycle at the descended path. -/
theorem validate_never_throws_without_custom_throw_witness :
    okB (Validator.validate [] cycTbl cycRef cycVal []) = true ∧
    Validator.validate [] cycTbl cycRef (JValue.obj [("child", JValue.str "bad")]) [] =
      .ok [mkErr [PTok.key "child"] "type" "value is not of the expected type"] := by
  constructor
  · apply validate_never_throws_without_custom_throw [] cycTbl (fun _ => 0)
      cycRef cycVal []
    · constructor
      · intro u s2 h u2 hu2
        simp only [cycTbl, findVal] at h
        split at h
        · cases h
          rw [cycNode, sameValRefs_mk] at hu2
          simp [sameValRefsList_nil] at hu2
        · cases h
      · intro u
        simp [cycTbl]
    · simp
  · simp only [Validator.validate, cycTbl, cycRef, cycNode, schSize, optSchSize,
      schPropsSize, schListSize, jSize, jSizeFields, tblSchSize]
    rfl

/-- C2: the editor's validate method is deterministic and stateless: a call
leaves the editor state unchanged, and interleaving any sequence of validate
calls on other values does not change the result for a given value. -/
theorem validate_stateless_deterministic :
    ∀ (s : JSONEditor) (v : JValue) (ws : List JValue),
      (JSONEditor.validate s [v]).state = s ∧
      JSONEditor.validate
          (ws.foldl (fun t w => (JSONEditor.validate t [w]).state) s) [v] =
        JSONEditor.validate s [v] := by
  intro s v ws
  exact ⟨validateM_state_fix s [v], by rw [foldl_validateM_state]⟩

/-- C3: the onResolved callback discipline of load — over every input the
trace records exactly one callback invocation when resolution succeeds and
none when it fails; in particular a dangling reference reports a resolution
error naming the pointer and never invokes the callback, while a
self-referential schema resolves successfully (non-fatal cycle) with exactly
one callback invocation. -/
theorem load_resolved_callback_discipline :
    (∀ (fuel : Nat) (fetch : String → Option JValue) (root : JValue) (base : String),
      resolvedCount (SchemaLoader.load fuel fetch root base).2 =
        if okB (SchemaLoader.load fuel fetch root base).1 = true then 1 else 0) ∧
    SchemaLoader.load 9 (fun _ => none) danglingSchema "root" =
      (.error (.dangling "#/definitions/missing"), []) ∧
    okB (SchemaLoader.load 30 (fun _ => none) cyclicSchema "root").1 = true ∧
    resolvedCount (SchemaLoader.load 30 (fun _ => none) cyclicSchema "root").2 = 1 := by
  refine ⟨?_, by rfl, by rfl, by rfl⟩
  intro fuel fetch root base
  have hinv : LoadInv ⟨[(base, root)], []⟩ := ⟨by simp [fetchLog], by simp [fetchLog]⟩
  have h := (resolve_inv fuel).1 fetch ⟨[(base, root)], []⟩ [] root base root hinv
  rcases hres : resolveNode fuel fetch ⟨[(base, root)], []⟩ [] root base root with ⟨res, st⟩
  rw [hres] at h
  have h0 : resolvedCount st.events = 0 := by simpa [resolvedCount] using h.2
  cases res with
  | ok g =>
    simp only [SchemaLoader.load, hres]
    rw [resolvedCount_append, h0]
    rfl
  | error e =>
    simp only [SchemaLoader.load, hres]
    rw [h0]
    rfl

/-- C4: single-flight resolution — over every input no canonical document
URI ever appears twice in the fetch trace of one load call; in particular a
schema referencing the same external document from two distinct locations
fetches it exactly once and still resolves successfully. -/
theorem load_single_flight :
    (∀ (fuel : Nat) (fetch : String → Option JValue) (root : JValue) (base : String),
      (fetchLog (SchemaLoader.load fuel fetch root base).2).Nodup) ∧
    fetchLog (SchemaLoader.load 20 extFetch twoRefSchema "root").2 = ["ext.json"] ∧
    okB (SchemaLoader.load 20 extFetch twoRefSchema "root").1 = true := by
  refine ⟨?_, by rfl, by rfl⟩
  intro fuel fetch root base
  have hinv : LoadInv ⟨[(base, root)], []⟩ := ⟨by simp [fetchLog], by simp [fetchLog]⟩
  have h := (resolve_inv fuel).1 fetch ⟨[(base, root)], []⟩ [] root base root hinv
  rcases hres : resolveNode fuel fetch ⟨[(base, root)], []⟩ [] root base root with ⟨res, st⟩
  rw [hres] at h
  cases res with
  | ok g =>
    simp only [SchemaLoader.load, hres]
    rw [fetchLog_append]
    have h1 : fetchLog [LEvent.resolvedCb] = [] := by simp [fetchLog]
    rw [h1, List.append_nil]
    exact h.1.2
  | error e =>
    simp only [SchemaLoader.load, hres]
    exact h.1.2

/-- C5 counterexample: after destroying an editor with a change frame
pending, the deferred onChange callback is not a no-op — it still writes the
firing_change flag of the destroyed editor before its ready guard, so its
output state differs from the state it was given. -/
theorem destroy_pending_change_callback_cex :
    JSONEditor.onChangeRafCb (JSONEditor.destroy c5editor) ≠
      .ok (JSONEditor.destroy c5editor, []) := by
  intro h
  simp [JSONEditor.onChangeRafCb, JSONEditor.destroy, c5editor] at h

/-- C5 amended: after a successful destroy the pending ready-event
completion callback is a complete no-op (no state change, no events), and
the pending deferred change callback performs no validation and fires no
events, but it does reset the internal firing_change scheduling flag before
returning. -/
theorem destroy_pending_callbacks_amended :
    ∀ s : JSONEditor, s.destroyed = false →
      JSONEditor.readyRafCb (JSONEditor.destroy s) =
        .ok (JSONEditor.destroy s, []) ∧
      JSONEditor.onChangeRafCb (JSONEditor.destroy s) =
        .ok ({ JSONEditor.destroy s with firing_change := false }, []) := by
  intro s hd
  have hready : (JSONEditor.destroy s).ready = false := by
    by_cases hr : s.ready = true
    · simp [JSONEditor.destroy, hd, hr]
    · have hr2 : s.ready = false := by
        cases hb : s.ready
        · rfl
        · exact absurd hb hr
      simp [JSONEditor.destroy, hd, hr2]
  constructor
  · simp [JSONEditor.readyRafCb, hready]
  · simp [JSONEditor.onChangeRafCb, hready]

/-- Witness for the amended C5 at a concrete pending-change editor. -/
theorem destroy_pending_callbacks_amended_witness :
    JSONEditor.readyRafCb (JSONEditor.destroy c5editor) =
      .ok (JSONEditor.destroy c5editor, []) :=
  (destroy_pending_callbacks_amended c5editor rfl).1

/-- C6: error paths extend the call path token by token — every error of a
validation call lies at the call's path extended by some suffix, the root
call starting from the empty path; in particular the spec's nested
path-correctness test yields exactly one error, at path a.b, for the type
keyword. -/
theorem error_paths_extend_call_path :
    (∀ (tbl : List (String × Schema)) (s : Schema) (v : JValue) (p : List PTok)
      (es : List VError) (e : VError),
      Validator.validate [] tbl s v p = .ok es → e ∈ es → ∃ q, e.path = p ++ q) ∧
    Validator.validate [] [] c6schema c6value [] =
      .ok [mkErr [PTok.key "a", PTok.key "b"] "type"
        "value is not of the expected type"] := by
  constructor
  · intro tbl s v p es e h he
    exact (vFuel_path tbl
      ((jSize v + 1) * ((schSize s + tblSchSize tbl + 1) * (tbl.length + 2)))).1
      s v p es h e he
  · simp only [Validator.validate, c6schema, c6value, numOnly, schSize,
      optSchSize, schPropsSize, schListSize, jSize, jSizeFields]
    rfl

/-- Witness for C6: the path of the single reported error of the nested
test extends the empty root path. -/
theorem error_paths_extend_call_path_witness :
    ∃ q, ([PTok.key "a", PTok.key "b"] : List PTok) = [] ++ q := by
  obtain ⟨q, hq⟩ := error_paths_extend_call_path.1 [] c6schema c6value []
    [mkErr [PTok.key "a", PTok.key "b"] "type" "value is not of the expected type"]
    (mkErr [PTok.key "a", PTok.key "b"] "type" "value is not of the expected type")
    error_paths_extend_call_path.2 (by simp)
  exact ⟨q, by simpa [mkErr] using hq⟩

/-- C7: oneOf semantics — when zero branches pass the result is a synthetic
oneOf error followed by every branch's failure detail; when more than one
branch passes the result is the single ambiguous-match error; in particular
the spec's ambiguity test (oneOf of a number schema and a minimum-zero
schema, applied to 5) yields exactly the ambiguous-match error. -/
theorem oneOf_combinator_semantics :
    (∀ (p : List PTok) (rs : List (List VError)),
      (rs.filter List.isEmpty).length = 0 →
      combineOneOf p rs = mkErr p "oneOf" "no oneOf branch matched" :: rs.flatten) ∧
    (∀ (p : List PTok) (rs : List (List VError)),
      2 ≤ (rs.filter List.isEmpty).length →
      combineOneOf p rs = [mkErr p "oneOf" "ambiguous match"]) ∧
    Validator.validate [] [] c7schema (JValue.num 5) [] =
      .ok [mkErr [] "oneOf" "ambiguous match"] := by
  refine ⟨?_, ?_, ?_⟩
  · intro p rs h
    simp [combineOneOf, h]
  · intro p rs h
    simp only [combineOneOf]
    rw [if_neg (by omega), if_neg (by omega)]
  · simp only [Validator.validate, c7schema, numOnly, minZero, schSize,
      optSchSize, schPropsSize, schListSize, jSize]
    rfl

/-- Witness for C7 at concrete branch results: one all-failing branch list
and one doubly-passing branch list. -/
theorem oneOf_combinator_semantics_witness :
    combineOneOf [] [[mkErr [] "type" "m"]] =
      mkErr [] "oneOf" "no oneOf branch matched" :: [[mkErr [] "type" "m"]].flatten ∧
    combineOneOf [] [[], []] = [mkErr [] "oneOf" "ambiguous match"] :=
  ⟨oneOf_combinator_semantics.1 [] [[mkErr [] "type" "m"]] (by simp),
   oneOf_combinator_semantics.2.1 [] [[], []] (by simp)⟩

/-- C8: arity dispatch of the editor's validate method — with any argument
count other than exactly one (in particular zero) it returns the cached
validation_results without invoking the inner validator, and with exactly
one argument it runs a fresh validator pass on that argument. -/
theorem validate_arity_caching :
    ∀ (s : JSONEditor) (vi : VInst) (v : JValue),
      s.ready = true → s.validator = some vi →
      (∀ args : List JValue, args.length ≠ 1 →
        JSONEditor.validate s args = ⟨.ok s.validation_results, s, []⟩) ∧
      JSONEditor.validate s [v] =
        ⟨(Validator.validate vi.cvs vi.tbl vi.schema v []).map some, s, [v]⟩ := by
  intro s vi v hr hv
  constructor
  · intro args hlen
    match args with
    | [] => simp [JSONEditor.validate, hr]
    | [a] => exact absurd rfl hlen
    | a :: b :: rest => simp [JSONEditor.validate, hr]
  · simp [JSONEditor.validate, hr, hv]

/-- Witness for C8 at a concrete ready editor. -/
theorem validate_arity_caching_witness :
    JSONEditor.validate c8editor [] =
      ⟨.ok c8editor.validation_results, c8editor, []⟩ ∧
    JSONEditor.validate c8editor [JValue.null] =
      ⟨(Validator.validate [] [] Schema.empty JValue.null []).map some, c8editor,
        [JValue.null]⟩ :=
  ⟨(validate_arity_caching c8editor ⟨Schema.empty, [], []⟩ JValue.null rfl rfl).1 []
      (by simp),
   (validate_arity_caching c8editor ⟨Schema.empty, [], []⟩ JValue.null rfl rfl).2⟩

/-- C9: while the editor is not ready, getValue, setValue and validate all
throw and leave the editor state unchanged. -/
theorem not_ready_methods_throw :
    ∀ (s : JSONEditor) (v : JValue) (args : List JValue),
      s.ready = false →
      JSONEditor.getValue s =
        (.error "JSON Editor not ready yet. Listen for ready event before getting the value", s) ∧
      JSONEditor.setValue s v =
        (.error "JSON Editor not ready yet. Listen for ready event before setting the value", s) ∧
      JSONEditor.validate s args =
        ⟨.error "JSON Editor not ready yet. Listen for ready event before validating", s, []⟩ := by
  intro s v args hr
  refine ⟨?_, ?_, ?_⟩ <;>
    simp [JSONEditor.getValue, JSONEditor.setValue, JSONEditor.validate, hr]

/-- Witness for C9 at a concrete never-ready editor. -/
theorem not_ready_methods_throw_witness :
    JSONEditor.getValue c9editor =
      (.error "JSON Editor not ready yet. Listen for ready event before getting the value", c9editor) ∧
    JSONEditor.validate c9editor [] =
      ⟨.error "JSON Editor not ready yet. Listen for ready event before validating", c9editor, []⟩ :=
  ⟨(not_ready_methods_throw c9editor JValue.null [] rfl).1,
   (not_ready_methods_throw c9editor JValue.null [] rfl).2.2⟩

/-- C10: destroy is idempotent and gated — destroying twice equals
destroying once, destroy is a no-op on an already destroyed editor and on an
editor that never became ready, and a successful destroy leaves the editor
not ready, marked destroyed, with every schema, root, validator, result and
presentation field cleared. -/
theorem destroy_idempotent_and_gated :
    ∀ s : JSONEditor,
      JSONEditor.destroy (JSONEditor.destroy s) = JSONEditor.destroy s ∧
      (s.destroyed = true → JSONEditor.destroy s = s) ∧
      (s.ready = false → JSONEditor.destroy s = s) ∧
      (s.ready = true → s.destroyed = false →
        ((JSONEditor.destroy s).ready = false ∧
         (JSONEditor.destroy s).destroyed = true ∧
         (JSONEditor.destroy s).schema = none ∧
         (JSONEditor.destroy s).options = none ∧
         (JSONEditor.destroy s).root = none ∧
         (JSONEditor.destroy s).root_container = none ∧
         (JSONEditor.destroy s).validator = none ∧
         (JSONEditor.destroy s).validation_results = none ∧
         (JSONEditor.destroy s).theme = none ∧
         (JSONEditor.destroy s).iconlib = none ∧
         (JSONEditor.destroy s).template = none ∧
         (JSONEditor.destroy s).dataMap = none ∧
         (JSONEditor.destroy s).elementHTML = "")) := by
  intro s
  by_cases hd : s.destroyed = true
  · have h1 : JSONEditor.destroy s = s := by simp [JSONEditor.destroy, hd]
    exact ⟨by rw [h1, h1], fun _ => h1, fun _ => h1,
      fun _ hnd => absurd hd (by simp [hnd])⟩
  · have hd2 : s.destroyed = false := by
      cases hb : s.destroyed
      · rfl
      · exact absurd hb hd
    by_cases hr : s.ready = true
    · have h1 : JSONEditor.destroy s =
          { s with
            schema := none, options := none, root := none, root_container := none,
            validator := none, validation_results := none, theme := none,
            iconlib := none, template := none, dataMap := none, ready := false,
            elementHTML := "", dataThemeAttr := none, destroyed := true } := by
        simp [JSONEditor.destroy, hd2, hr]
      refine ⟨?_, fun hc => absurd hc (by simp [hd2]), fun hc => absurd hr (by simp [hc]),
        fun _ _ => by rw [h1]; simp⟩
      rw [h1]
      simp [JSONEditor.destroy]
    · have hr2 : s.ready = false := by
        cases hb : s.ready
        · rfl
        · exact absurd hb hr
      have h1 : JSONEditor.destroy s = s := by simp [JSONEditor.destroy, hd2, hr2]
      exact ⟨by rw [h1, h1], fun hc => absurd hc (by simp [hd2]), fun _ => h1,
        fun hc _ => absurd hr2 (by simp [hc])⟩

/-- Witness for C10 at a concrete ready editor. -/
theorem destroy_idempotent_and_gated_witness :
    (JSONEditor.destroy c10editor).ready = false ∧
    (JSONEditor.destroy c10editor).destroyed = true ∧
    (JSONEditor.destroy c10editor).validator = none :=
  ⟨((destroy_idempotent_and_gated c10editor).2.2.2 rfl rfl).1,
   ((destroy_idempotent_and_gated c10editor).2.2.2 rfl rfl).2.1,
   ((destroy_idempotent_and_gated c10editor).2.2.2 rfl rfl).2.2.2.2.2.2.1⟩
